import Mathlib

/-!
Verification of the repo-assist agent core against its specification.

The Python sources (`src/agent_orchestrator.py`, `src/session_manager.py`,
`src/tool_gateway.py`) are shallowly embedded below: Python dicts whose keys
are statically known are records of `Option` fields (a key is "present" iff
the field is `some`), exceptions become `Except String`, and the
non-deterministic LLM responder is modelled as an arbitrary function from
the index of the responder invocation to the parts of its reply (the
conversation history only ever flows back into the responder, so with the
responder universally quantified the history is not itself observable and
is not tracked).  Python `str.splitlines` is modelled as splitting on the
newline character, and `str.strip` by stripping the six ASCII whitespace
characters.
-/

set_option autoImplicit false

namespace RepoAssist

/-! ### Data model (dataclasses of `agent_orchestrator.py`) -/

/-- Arguments dict of a tool call.  Only the keys that `_execute_tool`
reads are modelled; a missing key is `none` (Python `dict.get`).
`pathStart` models the source key `path_prefix`. -/
structure Args where
  query : Option String := none
  top_k : Option Int := none
  path : Option String := none
  start_line : Option Int := none
  end_line : Option Int := none
  state : Option String := none
  limit : Option Int := none
  pathStart : Option String := none
  extensions : Option (List String) := none
deriving DecidableEq, Repr

/-- One match dict returned by `ToolGateway.search_repo`, restricted to the
keys `_consolidate_evidence` reads via `.get`. -/
structure SearchItem where
  file_path : Option String := none
  start_line : Option Int := none
  end_line : Option Int := none
  snippet : Option String := none
deriving DecidableEq, Repr

/-- One issue / pull-request dict, restricted to the keys the
consolidator reads. -/
structure IssueItem where
  number : Option Int := none
  url : Option String := none
  title : Option String := none
deriving DecidableEq, Repr

/-- A tool-result dict.  Each field models one key the orchestrator ever
probes (`"results" in result` is `results.isSome`, and so on). -/
structure ResultDict where
  results : Option (List SearchItem) := none
  file_path : Option String := none
  start_line : Option Int := none
  end_line : Option Int := none
  text : Option String := none
  issues : Option (List IssueItem) := none
  pull_requests : Option (List IssueItem) := none
  files : Option (List String) := none
  count : Option Int := none
  error : Option String := none
  total_lines : Option Int := none
deriving DecidableEq, Repr

/-- The `result` field of an `ExecutedToolCall`: `_consolidate_evidence`
guards on `isinstance(result, dict)`. -/
inductive ToolResult where
  | dict (d : ResultDict)
  | nonDict
deriving DecidableEq, Repr

/-- `ToolCallSpec` dataclass. -/
structure ToolCallSpec where
  tool_name : String
  args : Args
  rationale : String := ""
deriving DecidableEq, Repr

/-- `ExecutedToolCall` dataclass. -/
structure ExecutedToolCall where
  tool_name : String
  args : Args
  result : ToolResult
  error : Option String := none
deriving DecidableEq, Repr

/-- `Citation` dataclass. -/
structure Citation where
  file_path : String
  start_line : Option Int := none
  end_line : Option Int := none
  snippet : String := ""
  source_type : String := "file"
  ref_id : Option String := none
deriving DecidableEq, Repr

/-- `FinalResponse` dataclass. -/
structure FinalResponse where
  answer_text : String
  citations : List Citation := []
  patch_diff : Option String := none
  next_actions : List String := []
deriving DecidableEq, Repr

/-- `MODES` tuple. -/
def MODES : List String := ["explain", "locate", "suggest", "patch"]

/-- `SCOPES` tuple. -/
def SCOPES : List String := ["files-only", "include-pr"]

/-! ### Python string primitives used by the source -/

/-- The six ASCII whitespace characters of Python `str.strip` / `\s`. -/
def pyIsSpace (c : Char) : Bool :=
  c == ' ' || c == '\t' || c == '\n' || c == '\r' || c == '\x0b' || c == '\x0c'

/-- Python `str.strip()` on a character list. -/
def pyStripL (cs : List Char) : List Char :=
  ((cs.dropWhile pyIsSpace).reverse.dropWhile pyIsSpace).reverse

/-- Python `str.strip()`. -/
def pyStrip (s : String) : String := ⟨pyStripL s.toList⟩

/-- Python `s[:n]` on a string (character slicing). -/
def pyTake (s : String) (n : Nat) : String := ⟨s.toList.take n⟩

/-- Python `str.splitlines()` (newline-character model): no entry is
produced after a terminal newline. -/
def splitNL : List Char → List (List Char)
  | [] => []
  | c :: cs =>
    let l := (c :: cs).takeWhile (· ≠ '\n')
    match h : (c :: cs).dropWhile (· ≠ '\n') with
    | [] => [l]
    | _ :: r' => l :: splitNL r'
termination_by cs => cs.length + 1
decreasing_by
  have hle : ((c :: cs).dropWhile (· ≠ '\n')).length ≤ (c :: cs).length :=
    (List.dropWhile_sublist _).length_le
  rw [h] at hle
  simp only [List.length_cons] at hle ⊢
  omega

/-- `"\n".join` on line lists. -/
def joinNL (ls : List (List Char)) : List Char := List.intercalate ['\n'] ls

/-- First index at which `pat` occurs as a substring (Python `re.search`
of a literal / leftmost-match position). -/
def findSub (pat : List Char) : List Char → Option Nat
  | [] => if pat.isPrefixOf ([] : List Char) then some 0 else none
  | c :: cs =>
    if pat.isPrefixOf (c :: cs) then some 0
    else (findSub pat cs).map (· + 1)

/-! ### Tool dispatch (`_execute_tool`)

The gateway collaborator is abstract: each operation may return a value or
raise (`Except.error`).  `executeToolExc` is the `try` body, `executeTool`
adds the `except Exception` handler. -/

/-- Abstract collaborator behind the dispatcher (`ToolGateway` surface as
used by `_execute_tool`). -/
structure Gateway where
  search_repo : Option String → Int → Except String (List SearchItem)
  open_file : Option String → Option Int → Option Int → Except String ResultDict
  get_issues : Option String → String → Int → Except String (List IssueItem)
  get_pull_requests : Option String → String → Int → Except String (List IssueItem)
  stats : Except String ResultDict
  list_files : Option String → Option (List String) → Except String (List String)

/-- `{"error": e}`. -/
def mkError (e : String) : ResultDict := { error := some e }

/-- The tool names `_execute_tool` recognizes. -/
def KNOWN_TOOLS : List String :=
  ["search_repo", "open_file", "get_issues", "get_pull_requests",
   "get_repo_stats", "list_files"]

/-- Body of `_execute_tool` before the surrounding `try`/`except`:
dispatch on the tool name, with the files-only policy gate on the
issue/PR tools placed before any collaborator call. -/
def executeToolExc (gw : Gateway) (tool_name : String) (args : Args)
    (scope : String) : Except String ResultDict :=
  if tool_name = "search_repo" then do
    let rs ← gw.search_repo args.query (args.top_k.getD 5)
    pure { results := some rs, count := some (rs.length : Int) }
  else if tool_name = "open_file" then
    gw.open_file args.path args.start_line args.end_line
  else if tool_name = "get_issues" then
    if scope = "files-only" then
      pure (mkError "get_issues not available in files-only scope")
    else do
      let rs ← gw.get_issues args.query (args.state.getD "open") (args.limit.getD 10)
      pure { issues := some rs, count := some (rs.length : Int) }
  else if tool_name = "get_pull_requests" then
    if scope = "files-only" then
      pure (mkError "get_pull_requests not available in files-only scope")
    else do
      let rs ← gw.get_pull_requests args.query (args.state.getD "open") (args.limit.getD 10)
      pure { pull_requests := some rs, count := some (rs.length : Int) }
  else if tool_name = "get_repo_stats" then
    gw.stats
  else if tool_name = "list_files" then do
    let fs ← gw.list_files args.pathStart args.extensions
    pure { files := some fs, count := some (fs.length : Int) }
  else
    pure (mkError ("Unknown tool: " ++ tool_name))

/-- `_execute_tool`: every exception of the body becomes `{"error": str(e)}`. -/
def executeTool (gw : Gateway) (tool_name : String) (args : Args)
    (scope : String) : ResultDict :=
  match executeToolExc gw tool_name args scope with
  | .ok d => d
  | .error e => mkError e

/-! ### Evidence consolidation (`_consolidate_evidence`)

The natural dedup keys live in the same space as the Python tuples put in
`seen`: a file key is the 3-tuple of the raw (possibly absent) values, an
issue / PR key is the pair of the kind tag and the raw number. -/

/-- Natural identity key of one piece of evidence. -/
inductive EvKey where
  | file (fp : Option String) (sl el : Option Int)
  | issue (n : Option Int)
  | pr (n : Option Int)
deriving DecidableEq, Repr

/-- Key and citation built from one `search_repo` match
(`_consolidate_evidence`, `search_repo` branch). -/
def searchPair (item : SearchItem) : EvKey × Citation :=
  (.file item.file_path item.start_line item.end_line,
   { file_path := item.file_path.getD ""
     start_line := item.start_line
     end_line := item.end_line
     snippet := item.snippet.getD ""
     source_type := "file" })

/-- Key and citation built from one `open_file` result
(`_consolidate_evidence`, `open_file` branch). -/
def openFilePair (fp : String) (d : ResultDict) : EvKey × Citation :=
  let t := d.text.getD ""
  (.file (some fp) d.start_line d.end_line,
   { file_path := fp
     start_line := d.start_line
     end_line := d.end_line
     snippet := pyTake t 200 ++ (if 200 < t.length then "..." else "")
     source_type := "file" })

/-- `str(x)` applied to an optional number, defaulting to `""`
(`str(issue.get("number", ""))`). -/
def refIdOf (n : Option Int) : String :=
  match n with
  | some k => toString k
  | none => ""

/-- Key and citation built from one issue record. -/
def issuePair (item : IssueItem) : EvKey × Citation :=
  (.issue item.number,
   { file_path := item.url.getD ""
     snippet := item.title.getD ""
     source_type := "issue"
     ref_id := some (refIdOf item.number) })

/-- Key and citation built from one pull-request record. -/
def prPair (item : IssueItem) : EvKey × Citation :=
  (.pr item.number,
   { file_path := item.url.getD ""
     snippet := item.title.getD ""
     source_type := "pr"
     ref_id := some (refIdOf item.number) })

/-- The keyed citations one executed call contributes, before
deduplication: the branch structure of `_consolidate_evidence` (the
`elif` chain on `tool_name` and key presence). -/
def callPairs (call : ExecutedToolCall) : List (EvKey × Citation) :=
  match call.result with
  | .nonDict => []
  | .dict d =>
    if call.tool_name = "search_repo" ∧ d.results.isSome then
      (d.results.getD []).map searchPair
    else if call.tool_name = "open_file" ∧ d.file_path.isSome then
      [openFilePair (d.file_path.getD "") d]
    else if call.tool_name = "get_issues" ∧ d.issues.isSome then
      (d.issues.getD []).map issuePair
    else if call.tool_name = "get_pull_requests" ∧ d.pull_requests.isSome then
      (d.pull_requests.getD []).map prPair
    else []

/-- The body of every `if key not in seen` block: record the key as seen
and append the citation, otherwise drop it. -/
def addPair (st : List EvKey × List Citation) (p : EvKey × Citation) :
    List EvKey × List Citation :=
  if p.1 ∈ st.1 then st else (p.1 :: st.1, st.2 ++ [p.2])

/-- Processing of one executed call against the running
`(seen, citations)` state. -/
def consolidateCall (st : List EvKey × List Citation) (call : ExecutedToolCall) :
    List EvKey × List Citation :=
  (callPairs call).foldl addPair st

/-- `_consolidate_evidence`: single pass over the executed calls with a
shared `seen` set, first occurrence of each key wins. -/
def consolidate_evidence (executed : List ExecutedToolCall) : List Citation :=
  (executed.foldl consolidateCall ([], [])).2

/-- Specification-side deduplication: keep the first pair carrying each
key (keys in `seen` already count as occurred), preserving order. -/
def dedupPairs (seen : List EvKey) : List (EvKey × Citation) → List (EvKey × Citation)
  | [] => []
  | p :: ps => if p.1 ∈ seen then dedupPairs seen ps
               else p :: dedupPairs (p.1 :: seen) ps

/-- The final `seen` set after folding `addPair`. -/
def seenFold (seen : List EvKey) (ps : List (EvKey × Citation)) : List EvKey :=
  ps.foldl (fun s p => if p.1 ∈ s then s else p.1 :: s) seen

/-! ### Patch extraction (`_extract_patch`)

`re.search(r"```diff\n(.*?)```", text, re.DOTALL)`: the leftmost match
starts at the first occurrence of the opening fence that is followed by a
later closing fence; laziness picks the first such closing fence.  Two
occurrences of the 8-character opening fence cannot overlap (it has no
non-trivial border), so if the first opening fence is unclosed no later
one can be closed either, and searching from the first occurrence is
exactly the regex semantics. -/

/-- `"```diff\n"`. -/
def FENCE_OPEN : List Char := ("```diff".push '\n').toList

/-- `"```"`. -/
def FENCE_CLOSE : List Char := "```".toList

/-- A unified-diff file-header line (`--- ` / `+++ ` prefix). -/
def isDiffMarker (l : List Char) : Bool :=
  ("--- ".toList).isPrefixOf l || ("+++ ".toList).isPrefixOf l

/-- Fallback branch of `_extract_patch`: once a line starts with a diff
file-header marker, that line and everything after it is the diff. -/
def extractPatchLines (text : String) : Option String × String :=
  let lines := splitNL text.toList
  let diff_lines := lines.dropWhile (fun l => !isDiffMarker l)
  let rest_lines := lines.takeWhile (fun l => !isDiffMarker l)
  if diff_lines.isEmpty then (none, text)
  else (some ⟨joinNL diff_lines⟩, ⟨joinNL rest_lines⟩)

/-- `_extract_patch`. -/
def extract_patch (text : String) : Option String × String :=
  let cs := text.toList
  match findSub FENCE_OPEN cs with
  | some i =>
    match findSub FENCE_CLOSE (cs.drop (i + 8)) with
    | some j =>
      let patch : List Char := (cs.drop (i + 8)).take j
      let cleaned : List Char := cs.take i ++ cs.drop (i + 8 + j + 3)
      (some (pyStrip ⟨patch⟩), pyStrip ⟨cleaned⟩)
    | none => extractPatchLines text
  | none => extractPatchLines text

/-! ### Next-actions extraction (`_extract_next_actions`)

The regex
`(?:Next Actions?|Next Steps?|Suggested Steps?|Recommendations?)\s*:?\s*\n((?:[ \t]*[-*\d•].*\n?)+)`
(ignore-case) is embedded as an explicit backtracking matcher: heading
alternatives with an optional trailing `s` (greedy, so the `s`-consuming
branch is tried first), then `\s*:?\s*\n` (both `\s*` greedy-longest
first, the optional colon consuming-first), then the capture group: a
maximal non-empty run of list-item lines, each line keeping its trailing
newline (greedy `\n?` with nothing after the group). -/

/-- Does the line start with `[ \t]*[-*\d•]`? -/
def isMarkerChar (c : Char) : Bool :=
  c == '-' || c == '*' || c == '•' || c.isDigit

/-- `[ \t]*[-*\d•]` at the head of the remaining input. -/
def isListLineStart : List Char → Bool
  | [] => false
  | c :: cs => if c == ' ' || c == '\t' then isListLineStart cs else isMarkerChar c

/-- The capture group `(?:[ \t]*[-*\d•].*\n?)+`, greedy: returns the
captured block and the remaining input.  Only called when
`isListLineStart` holds, in which case the block is non-empty. -/
def takeListLines (cs : List Char) : List Char × List Char :=
  if isListLineStart cs then
    let line := cs.takeWhile (· ≠ '\n')
    match h : cs.dropWhile (· ≠ '\n') with
    | [] => (line, [])
    | _ :: r' =>
      if isListLineStart r' then
        let p := takeListLines r'
        (line ++ '\n' :: p.1, p.2)
      else (line ++ ['\n'], r')
  else ([], cs)
termination_by cs.length
decreasing_by
  have hle : (cs.dropWhile (· ≠ '\n')).length ≤ cs.length :=
    (List.dropWhile_sublist _).length_le
  rw [h] at hle
  simp only [List.length_cons] at hle
  omega

/-- All remainders obtainable by `\s*` at the head of the input, the
longest-consuming one first (greedy order). -/
def wsRems (cs : List Char) : List (List Char) :=
  let n := (cs.takeWhile pyIsSpace).length
  (List.range (n + 1)).map fun k => cs.drop (n - k)

/-- The remainders of `:?`, the colon-consuming branch first (greedy). -/
def colonOpts (cs : List Char) : List (List Char) :=
  match cs with
  | c :: r => if c = ':' then [r, cs] else [cs]
  | [] => [cs]

/-- Keep a remainder only when the literal `\n` matches next. -/
def afterNewline (cs : List Char) : Option (List Char) :=
  match cs with
  | c :: r => if c = '\n' then some r else none
  | [] => none

/-- All remainders of `\s*:?\s*\n` at the head of the input, in
backtracking preference order. -/
def sepCandidates (cs : List Char) : List (List Char) :=
  (wsRems cs).flatMap fun r1 =>
    (colonOpts r1).flatMap fun r2 =>
      (wsRems r2).filterMap afterNewline

/-- Match a fixed lowercase pattern case-insensitively at the head of the
input, returning the remainder. -/
def matchCI : List Char → List Char → Option (List Char)
  | [], cs => some cs
  | _ :: _, [] => none
  | p :: ps, c :: cs => if p == c.toLower then matchCI ps cs else none

/-- The heading alternatives, lowercased, without the optional `s`. -/
def NA_HEADINGS : List (List Char) :=
  ["next action", "next step", "suggested step", "recommendation"].map
    String.toList

/-- The remainders of the optional trailing `s` (`s?`, consuming branch
first) at the head of the input. -/
def sOpts (r : List Char) : List (List Char) :=
  match r with
  | c :: r' => if c.toLower == 's' then [r', r] else [r]
  | [] => [r]

/-- All remainders of the heading alternation (with optional trailing
`s`) at the head of the input. -/
def headingRems (cs : List Char) : List (List Char) :=
  NA_HEADINGS.flatMap fun base =>
    match matchCI base cs with
    | none => []
    | some r => sOpts r

/-- Try the whole next-actions pattern at the head of the input:
on success, the captured block and the remainder after the match. -/
def tryNA (cs : List Char) : Option (List Char × List Char) :=
  (headingRems cs).findSome? fun r =>
    ((sepCandidates r).find? isListLineStart).map takeListLines

/-- Leftmost-match scan of the next-actions pattern: returns the match
start index, the captured block, and the input after the match. -/
def scanNA : Nat → List Char → Option (Nat × List Char × List Char)
  | i, [] => (tryNA []).map fun p => (i, p)
  | i, c :: cs =>
    match tryNA (c :: cs) with
    | some p => some (i, p)
    | none => scanNA (i + 1) cs

/-- A character stripped by `re.sub(r"^[ \t]*[-*\d•\.\)]+[ \t]*", "", line)`
inside the marker run. -/
def isMarkerStripChar (c : Char) : Bool :=
  c == '-' || c == '*' || c == '•' || c == '.' || c == ')' || c.isDigit

/-- `re.sub(r"^[ \t]*[-*\d•\.\)]+[ \t]*", "", line)`: strip the leading
list marker; if no marker character follows the indent the regex does not
match and the line is unchanged. -/
def stripMarker (l : List Char) : List Char :=
  let l1 := l.dropWhile (fun c => c == ' ' || c == '\t')
  match l1 with
  | c :: _ =>
    if isMarkerStripChar c then
      (l1.dropWhile isMarkerStripChar).dropWhile (fun c => c == ' ' || c == '\t')
    else l
  | [] => l

/-- `_extract_next_actions`. -/
def extract_next_actions (text : String) : List String × String :=
  let cs := text.toList
  match scanNA 0 cs with
  | none => ([], text)
  | some (s, block, rest) =>
    let actions := (splitNL block).filterMap fun line =>
      if pyStripL line = [] then none
      else
        let a := pyStripL (stripMarker line)
        if a = [] then none else some (⟨a⟩ : String)
    (actions, pyStrip ⟨cs.take s ++ rest⟩)

/-- `_compose_response`: patch extraction is gated on `mode == "patch"`,
then next-actions extraction runs on the result, then the prose is
stripped. -/
def composeResponse (raw_text : String) (evidence : List Citation)
    (mode : String) : FinalResponse :=
  let pd := if mode = "patch" then extract_patch raw_text else (none, raw_text)
  let na := extract_next_actions pd.2
  { answer_text := pyStrip na.2
    citations := evidence
    patch_diff := pd.1
    next_actions := na.1 }

/-! ### The orchestration loop (`AgentOrchestrator.run`) -/

/-- One part of a responder reply: a tool-call request or a text
fragment (`part.function_call` / `part.text`). -/
inductive Part where
  | functionCall (name : String) (args : Args)
  | text (s : String)
deriving DecidableEq, Repr

/-- Collect a part into `function_calls`. -/
def partFC : Part → Option (String × Args)
  | .functionCall n a => some (n, a)
  | .text _ => none

/-- Collect a part into `text_parts` (`elif part.text:` drops the empty,
falsy string). -/
def partText : Part → Option String
  | .text s => if s = "" then none else some s
  | .functionCall _ _ => none

/-- `final_text += part.text` over the fallback reply. -/
def concatTexts (parts : List Part) : String :=
  String.join (parts.filterMap partText)

/-- Loop-local state of `run`: the turn-1 plan, the executed calls, the
accumulated terminal text and the number of responder invocations made. -/
structure LoopState where
  plan : List ToolCallSpec := []
  executed : List ExecutedToolCall := []
  finalText : String := ""
  calls : Nat := 0
deriving Repr

/-- The `while turn < max_turns` loop of `run`.  The responder `script`
gives the parts of its reply to the n-th responder invocation; an empty
reply models "no candidates / no parts" and breaks the loop. -/
def runLoop (script : Nat → List Part) (gw : Gateway) (scope : String) :
    Nat → Nat → LoopState → LoopState
  | 0, _, st => st
  | rem + 1, turn, st =>
    let parts := script st.calls
    let st := { st with calls := st.calls + 1 }
    if parts.isEmpty then st
    else
      let fcs := parts.filterMap partFC
      let txts := parts.filterMap partText
      if fcs.isEmpty then
        if txts.isEmpty then
          runLoop script gw scope rem (turn + 1) st
        else { st with finalText := String.intercalate "\n" txts }
      else
        let st := if turn = 1 then
            { st with plan := fcs.map fun p => { tool_name := p.1, args := p.2 } }
          else st
        let st := if txts.isEmpty then st
          else { st with finalText := String.intercalate "\n" txts }
        let newExec := fcs.map fun p =>
          let r := executeTool gw p.1 p.2 scope
          ExecutedToolCall.mk p.1 p.2 (.dict r) r.error
        runLoop script gw scope rem (turn + 1)
          { st with executed := st.executed ++ newExec }

/-- An evidence reference persisted to the session. -/
structure EvidenceRef where
  file_path : String
  start_line : Option Int := none
  end_line : Option Int := none
deriving DecidableEq, Repr

/-- One call against the session collaborator. -/
inductive SessionOp where
  | addQuery (query : String) (summary : String)
  | addEvidence (refs : List EvidenceRef)
deriving DecidableEq, Repr

/-- Everything `run` returns or effects, instrumented: the public
`OrchestratorResult` fields plus the loop-exit text, the post-fallback
text, whether the one-shot fallback request was issued, the number of
loop responder invocations, and the session-collaborator calls made. -/
structure RunResult where
  tool_call_plan : List ToolCallSpec
  executed_tool_calls : List ExecutedToolCall
  consolidated_evidence : List Citation
  final_response : FinalResponse
  loopText : String
  finalText : String
  fallbackUsed : Bool
  loopCalls : Nat
  sessionOps : List SessionOp
deriving Repr

/-- `AgentOrchestrator.run`.  Argument validation raises (`Except.error`);
then the turn loop runs (it performs no session operation — `LoopState`
cannot carry one); if the accumulated text is empty or whitespace-only,
the one-shot tool-free fallback request is issued and its text fragments
are appended; evidence is consolidated, the response composed, and only
then, when a session collaborator is attached, the two session calls
(`add_query`, then `add_evidence` restricted to file-type citations) are
emitted. -/
def run (script : Nat → List Part) (gw : Gateway) (query mode scope : String)
    (max_turns : Nat) (hasSession : Bool) : Except String RunResult :=
  if mode ∉ MODES then .error "mode must be one of MODES"
  else if scope ∉ SCOPES then .error "scope must be one of SCOPES"
  else
    let st := runLoop script gw scope max_turns 1 {}
    let fb := pyStrip st.finalText == ""
    let finalText := if fb then st.finalText ++ concatTexts (script st.calls)
      else st.finalText
    let evidence := consolidate_evidence st.executed
    let final := composeResponse finalText evidence mode
    let ops := if hasSession then
        [SessionOp.addQuery query (pyTake final.answer_text 300),
         SessionOp.addEvidence (evidence.filterMap fun c =>
           if c.source_type = "file" then
             some { file_path := c.file_path, start_line := c.start_line,
                    end_line := c.end_line }
           else none)]
      else []
    .ok { tool_call_plan := st.plan
          executed_tool_calls := st.executed
          consolidated_evidence := evidence
          final_response := final
          loopText := st.finalText
          finalText := finalText
          fallbackUsed := fb
          loopCalls := st.calls
          sessionOps := ops }

/-- The tool calls requested by one responder reply, as `ToolCallSpec`s
(what `run` records as the plan when the reply is the first turn). -/
def planOf (parts : List Part) : List ToolCallSpec :=
  (parts.filterMap partFC).map fun p => { tool_name := p.1, args := p.2 }

/-! ### Session manager (`session_manager.py`)

The on-disk JSON state is modelled by its fields used in the claims;
timestamps (wall-clock reads) are not modelled. -/

/-- One entry of `recent_queries`. -/
structure QueryEntry where
  query : String
  summary : String
deriving DecidableEq, Repr

/-- `user_settings`. -/
structure UserSettings where
  mode : String := "explain"
  scope : String := "include-pr"
  verbose : Bool := false
deriving DecidableEq, Repr

/-- The session state (`self._state`). -/
structure SessionState where
  recent_queries : List QueryEntry := []
  selected_evidence_refs : List EvidenceRef := []
  user_settings : UserSettings := {}
deriving DecidableEq, Repr

/-- Python `l[-n:]`. -/
def takeLast {α : Type} (l : List α) (n : Nat) : List α := l.drop (l.length - n)

/-- `SessionManager.add_query`: append the entry with the summary
truncated to 300 characters, then keep the last 10 entries. -/
def add_query (st : SessionState) (query summary : String) : SessionState :=
  { st with recent_queries :=
      takeLast (st.recent_queries ++ [{ query := query, summary := pyTake summary 300 }]) 10 }

/-- The dedup key of an evidence reference. -/
def evRefKey (r : EvidenceRef) : String × Option Int × Option Int :=
  (r.file_path, r.start_line, r.end_line)

/-- `SessionManager.add_evidence`: append the refs whose key is not yet
present, then keep the last 50. -/
def add_evidence (st : SessionState) (refs : List EvidenceRef) : SessionState :=
  let merged := refs.foldl (fun acc ref =>
      if (acc.map evRefKey).contains (evRefKey ref) then acc else acc ++ [ref])
    st.selected_evidence_refs
  { st with selected_evidence_refs := takeLast merged 50 }

/-- The context dict `get_llm_context` returns (the fields the claims
are about). -/
structure LlmContext where
  recent_queries : List QueryEntry
  selected_evidence_refs : List EvidenceRef
  user_settings : UserSettings
deriving DecidableEq, Repr

/-- `SessionManager.get_llm_context`. -/
def get_llm_context (st : SessionState) : LlmContext :=
  { recent_queries := takeLast st.recent_queries 5
    selected_evidence_refs := takeLast st.selected_evidence_refs 10
    user_settings := st.user_settings }

/-! ### `ToolGateway.open_file` (`tool_gateway.py`) -/

/-- The filesystem surface `open_file` reads: `files p` is the
`readlines()` result of a readable file `p` under the repo root. -/
structure GatewayFiles where
  repo_path : Option String := none
  files : String → Option (List String)

/-- The dict `open_file` returns (minus the `extension` key, string
metadata no claim touches). -/
structure OpenFileResult where
  file_path : String
  start_line : Int
  end_line : Int
  text : String
  total_lines : Nat
deriving DecidableEq, Repr

/-- A Python slice endpoint: negative indices count from the end,
everything is clamped into `[0, len]`. -/
def pyIdx (len : Nat) (i : Int) : Nat :=
  if i < 0 then (len + i).toNat else min i.toNat len

/-- Python `l[a:b]` (step 1). -/
def pySlice {α : Type} (l : List α) (a b : Int) : List α :=
  (l.take (pyIdx l.length b)).drop (pyIdx l.length a)

/-- `ToolGateway.open_file`: raises when no repository is loaded or the
path does not exist; applies the line range only when both bounds are
given, clamping `start_line - 1` below by 0 and `end_line` above by the
line count. -/
def gw_open_file (g : GatewayFiles) (path : String) (sl el : Option Int) :
    Except String OpenFileResult :=
  if g.repo_path.isNone then .error "No repository loaded"
  else
    match g.files path with
    | none => .error ("File not found: " ++ path)
    | some lines =>
      match sl, el with
      | some s, some e =>
        let start_idx : Int := max 0 (s - 1)
        let end_idx : Int := min (lines.length : Int) e
        .ok { file_path := path
              start_line := s
              end_line := end_idx
              text := String.join (pySlice lines start_idx end_idx)
              total_lines := lines.length }
      | _, _ =>
        .ok { file_path := path
              start_line := 1
              end_line := (lines.length : Int)
              text := String.join lines
              total_lines := lines.length }

/-- A fenced diff block exists in the text: an opening fence occurrence
followed (at distance at least its 8 characters) by a closing fence
occurrence — exactly when `re.search(r"```diff\n(.*?)```", ..., DOTALL)`
matches. -/
def HasFencedDiff (cs : List Char) : Prop :=
  ∃ i j, FENCE_OPEN.isPrefixOf (cs.drop i) = true ∧ i + 8 ≤ j
    ∧ FENCE_CLOSE.isPrefixOf (cs.drop j) = true

/-- A gateway every operation of which raises, for exercising the error
paths of the dispatcher. -/
def throwingGateway : Gateway where
  search_repo := fun _ _ => .error "boom"
  open_file := fun _ _ _ => .error "boom"
  get_issues := fun _ _ _ => .error "boom"
  get_pull_requests := fun _ _ _ => .error "boom"
  stats := .error "boom"
  list_files := fun _ _ => .error "boom"

/-! ## Theorems -/

/-! ### C1: consolidation deduplicates by natural key and is idempotent -/

theorem foldl_addPair_eq (ps : List (EvKey × Citation)) :
    ∀ (s : List EvKey) (cs : List Citation),
      ps.foldl addPair (s, cs) = (seenFold s ps, cs ++ (dedupPairs s ps).map Prod.snd) := by
  induction ps with
  | nil => intro s cs; simp [seenFold, dedupPairs]
  | cons p ps ih =>
    intro s cs
    by_cases h : p.1 ∈ s <;>
      simp [seenFold, dedupPairs, addPair, h, ih, List.foldl_cons]

theorem mem_seenFold {k : EvKey} (ps : List (EvKey × Citation)) :
    ∀ (s : List EvKey), k ∈ seenFold s ps ↔ k ∈ s ∨ k ∈ ps.map Prod.fst := by
  induction ps with
  | nil => intro s; simp [seenFold]
  | cons p ps ih =>
    intro s
    by_cases h : p.1 ∈ s
    · simp only [seenFold, List.foldl_cons, h, if_pos]
      rw [show List.foldl (fun s p => if p.1 ∈ s then s else p.1 :: s) s ps
            = seenFold s ps from rfl, ih]
      constructor
      · rintro (hk | hk)
        · exact Or.inl hk
        · exact Or.inr (by simp [hk])
      · rintro (hk | hk)
        · exact Or.inl hk
        · rcases (by simpa using hk) with hk | hk
          · exact Or.inl (hk ▸ h)
          · exact Or.inr (by simpa using hk)
    · simp only [seenFold, List.foldl_cons, h, if_neg, not_false_iff]
      rw [show List.foldl (fun s p => if p.1 ∈ s then s else p.1 :: s) (p.1 :: s) ps
            = seenFold (p.1 :: s) ps from rfl, ih]
      simp only [List.mem_cons, List.map_cons]
      tauto

theorem dedupPairs_append (ps qs : List (EvKey × Citation)) :
    ∀ (s : List EvKey),
      dedupPairs s (ps ++ qs)
        = dedupPairs s ps ++ dedupPairs (seenFold s ps) qs := by
  induction ps with
  | nil => intro s; simp [dedupPairs, seenFold]
  | cons p ps ih =>
    intro s
    by_cases h : p.1 ∈ s <;>
      simp [dedupPairs, h, ih, seenFold, List.foldl_cons]

theorem dedupPairs_of_seen (qs : List (EvKey × Citation)) :
    ∀ (s : List EvKey), (∀ k ∈ qs.map Prod.fst, k ∈ s) → dedupPairs s qs = [] := by
  induction qs with
  | nil => intro s _; simp [dedupPairs]
  | cons q qs ih =>
    intro s h
    have hq : q.1 ∈ s := h q.1 (by simp)
    simp only [dedupPairs, hq, if_pos]
    exact ih s (fun k hk => h k (by simp [hk]))

theorem dedupPairs_keys_nodup (ps : List (EvKey × Citation)) :
    ∀ (s : List EvKey),
      ((dedupPairs s ps).map Prod.fst).Nodup
      ∧ ∀ k ∈ (dedupPairs s ps).map Prod.fst, k ∉ s := by
  induction ps with
  | nil => intro s; simp [dedupPairs]
  | cons p ps ih =>
    intro s
    by_cases h : p.1 ∈ s
    · simpa [dedupPairs, h] using ih s
    · obtain ⟨hnd, hout⟩ := ih (p.1 :: s)
      refine ⟨?_, ?_⟩
      · simp only [dedupPairs, h, if_neg, not_false_iff, List.map_cons, List.nodup_cons]
        exact ⟨fun hmem => (hout p.1 hmem) (by simp), hnd⟩
      · intro k hk
        simp only [dedupPairs, h, if_neg, not_false_iff, List.map_cons, List.mem_cons] at hk
        rcases hk with hk | hk
        · exact hk ▸ h
        · intro hks
          exact hout k hk (by simp [hks])

theorem consolidate_foldl_flat (executed : List ExecutedToolCall) :
    ∀ (st : List EvKey × List Citation),
      executed.foldl consolidateCall st
        = (executed.flatMap callPairs).foldl addPair st := by
  induction executed with
  | nil => intro st; simp
  | cons c cs ih =>
    intro st
    simp only [List.foldl_cons, List.flatMap_cons, List.foldl_append]
    exact ih _

theorem consolidate_evidence_eq_dedup (executed : List ExecutedToolCall) :
    consolidate_evidence executed
      = (dedupPairs [] (executed.flatMap callPairs)).map Prod.snd := by
  unfold consolidate_evidence
  rw [consolidate_foldl_flat, foldl_addPair_eq]
  simp

/-- C1.  Evidence consolidation emits at most one citation per natural
key — the raw keyed emissions of the executed calls (file keys
`(path, startLine, endLine)`, issue/PR keys `(kind, number)`),
deduplicated by first occurrence, have pairwise distinct keys — it keeps
exactly the first occurrence of each key in first-seen order, and it is
idempotent: `consolidate (xs ++ xs) = consolidate xs`. -/
theorem consolidate_evidence_dedup_idempotent (xs : List ExecutedToolCall) :
    consolidate_evidence (xs ++ xs) = consolidate_evidence xs
    ∧ consolidate_evidence xs
        = (dedupPairs [] (xs.flatMap callPairs)).map Prod.snd
    ∧ ((dedupPairs [] (xs.flatMap callPairs)).map Prod.fst).Nodup := by
  refine ⟨?_, consolidate_evidence_eq_dedup xs, (dedupPairs_keys_nodup _ []).1⟩
  rw [consolidate_evidence_eq_dedup, consolidate_evidence_eq_dedup]
  have hflat : (xs ++ xs).flatMap callPairs
      = xs.flatMap callPairs ++ xs.flatMap callPairs := by
    simp
  rw [hflat, dedupPairs_append]
  have hseen : ∀ k ∈ (xs.flatMap callPairs).map Prod.fst,
      k ∈ seenFold [] (xs.flatMap callPairs) := by
    intro k hk
    rw [mem_seenFold]
    exact Or.inr hk
  rw [dedupPairs_of_seen _ _ hseen]
  simp

/-! ### C2: files-only scope gate on issue/PR tools -/

/-- C2.  Dispatching `get_issues` or `get_pull_requests` under the
`files-only` scope yields the fixed scope-violation error dict for every
arguments map; the result is the same for every gateway collaborator, so
the collaborator is never consulted. -/
theorem execute_tool_files_only_gate (gw : Gateway) (args : Args) :
    executeTool gw "get_issues" args "files-only"
      = mkError "get_issues not available in files-only scope"
    ∧ executeTool gw "get_pull_requests" args "files-only"
      = mkError "get_pull_requests not available in files-only scope" := by
  constructor <;> rfl

/-! ### C3: dispatch is total; errors never escape -/

/-- C3.  Tool dispatch is total: an unrecognized tool name yields
`{"error": "Unknown tool: <name>"}`, any exception the dispatch body
raises is caught and becomes `{"error": message}`, and consequently a
run never fails for tool-level reasons — with valid mode and scope,
`run` returns a result for every responder script and every (even
always-throwing) gateway. -/
theorem execute_tool_total (gw : Gateway) (tool_name : String) (args : Args)
    (scope : String) :
    (tool_name ∉ KNOWN_TOOLS →
      executeTool gw tool_name args scope = mkError ("Unknown tool: " ++ tool_name))
    ∧ (∀ e, executeToolExc gw tool_name args scope = .error e →
      executeTool gw tool_name args scope = mkError e)
    ∧ (∀ (script : Nat → List Part) (q mode scope' : String) (mt : Nat) (hs : Bool),
      mode ∈ MODES → scope' ∈ SCOPES →
      ∃ r, run script gw q mode scope' mt hs = .ok r) := by
  refine ⟨?_, ?_, ?_⟩
  · intro h
    simp only [KNOWN_TOOLS, List.mem_cons, List.not_mem_nil, or_false, not_or] at h
    obtain ⟨h1, h2, h3, h4, h5, h6⟩ := h
    unfold executeTool executeToolExc
    rw [if_neg h1, if_neg h2, if_neg h3, if_neg h4, if_neg h5, if_neg h6]
    rfl
  · intro e he
    simp [executeTool, he]
  · intro script q mode scope' mt hs hm hsc
    unfold run
    rw [if_neg (by simpa using hm), if_neg (by simpa using hsc)]
    exact ⟨_, rfl⟩

/-- Witness for C3: a nonsense tool name against an always-throwing
gateway, a known tool whose collaborator call throws, and a full run
against the throwing gateway. -/
theorem execute_tool_total_witness :
    executeTool throwingGateway "bogus" {} "include-pr" = mkError "Unknown tool: bogus"
    ∧ executeTool throwingGateway "search_repo" {} "include-pr" = mkError "boom"
    ∧ ∃ r, run (fun _ => [Part.functionCall "search_repo" {}]) throwingGateway
        "q" "explain" "include-pr" 2 false = .ok r :=
  ⟨(execute_tool_total throwingGateway "bogus" {} "include-pr").1 (by decide),
   (execute_tool_total throwingGateway "search_repo" {} "include-pr").2.1 "boom" rfl,
   (execute_tool_total throwingGateway "search_repo" {} "include-pr").2.2
     (fun _ => [Part.functionCall "search_repo" {}]) "q" "explain" "include-pr" 2 false
     (by decide) (by decide)⟩

/-! ### C4: the plan is exactly turn 1's requested calls -/

theorem runLoop_plan_stable (script : Nat → List Part) (gw : Gateway) (scope : String) :
    ∀ (rem turn : Nat) (st : LoopState), 2 ≤ turn →
      (runLoop script gw scope rem turn st).plan = st.plan := by
  intro rem
  induction rem with
  | zero => intro turn st _; rfl
  | succ rem ih =>
    intro turn st hturn
    simp only [runLoop]
    rw [if_neg (show ¬ turn = 1 by omega)]
    by_cases hp : (script st.calls).isEmpty = true
    · rw [if_pos hp]
    · rw [if_neg hp]
      by_cases hfc : (List.filterMap partFC (script st.calls)).isEmpty = true
      · rw [if_pos hfc]
        by_cases ht : (List.filterMap partText (script st.calls)).isEmpty = true
        · rw [if_pos ht]
          exact ih (turn + 1) _ (by omega)
        · rw [if_neg ht]
      · rw [if_neg hfc]
        by_cases ht : (List.filterMap partText (script st.calls)).isEmpty = true
        · rw [if_pos ht]
          exact ih (turn + 1) _ (by omega)
        · rw [if_neg ht]
          exact ih (turn + 1) _ (by omega)

theorem runLoop_first_plan (script : Nat → List Part) (gw : Gateway)
    (scope : String) (rem : Nat) (st : LoopState) (hplan : st.plan = []) :
    (runLoop script gw scope (rem + 1) 1 st).plan = planOf (script st.calls) := by
  simp only [runLoop]
  simp only [if_pos trivial]
  by_cases hp : (script st.calls).isEmpty = true
  · rw [if_pos hp]
    simp only [planOf, List.isEmpty_iff.mp hp, List.filterMap_nil, List.map_nil]
    exact hplan
  · rw [if_neg hp]
    by_cases hfc : (List.filterMap partFC (script st.calls)).isEmpty = true
    · rw [if_pos hfc]
      have hplanOf : planOf (script st.calls) = [] := by
        simp only [planOf, List.isEmpty_iff.mp hfc, List.map_nil]
      by_cases ht : (List.filterMap partText (script st.calls)).isEmpty = true
      · rw [if_pos ht]
        rw [runLoop_plan_stable script gw scope rem 2 _ (by omega), hplanOf]
        exact hplan
      · rw [if_neg ht]
        rw [hplanOf]
        exact hplan
    · rw [if_neg hfc]
      by_cases ht : (List.filterMap partText (script st.calls)).isEmpty = true
      · rw [if_pos ht]
        rw [runLoop_plan_stable script gw scope rem 2 _ (by omega)]
        rfl
      · rw [if_neg ht]
        rw [runLoop_plan_stable script gw scope rem 2 _ (by omega)]
        rfl

/-- C4.  With at least one turn available, the recorded tool-call plan is
exactly the list of tool calls the responder requested on turn 1 (and so
is empty when turn 1 requested none), no matter what later turns
request. -/
theorem run_plan_is_turn_one (script : Nat → List Part) (gw : Gateway)
    (q mode scope : String) (mt : Nat) (hs : Bool) (r : RunResult)
    (hmt : 1 ≤ mt) (hr : run script gw q mode scope mt hs = .ok r) :
    r.tool_call_plan = planOf (script 0) := by
  unfold run at hr
  split at hr
  · exact absurd hr (by simp)
  · split at hr
    · exact absurd hr (by simp)
    · rw [Except.ok.injEq] at hr
      subst hr
      obtain ⟨rem, rfl⟩ : ∃ rem, mt = rem + 1 := ⟨mt - 1, by omega⟩
      exact runLoop_first_plan script gw scope rem {} rfl

/-- Witness for C4: turn 1 requests one `get_repo_stats` call, turn 2
answers with text; the plan is that single call. -/
theorem run_plan_is_turn_one_witness :
    ∃ r, run (fun n => if n = 0 then [Part.functionCall "get_repo_stats" {}]
          else [Part.text "done"]) throwingGateway "q" "locate" "include-pr" 5 false = .ok r
      ∧ r.tool_call_plan
          = planOf [Part.functionCall "get_repo_stats" {}] := by
  obtain ⟨r, hr⟩ : ∃ r, run (fun n => if n = 0 then [Part.functionCall "get_repo_stats" {}]
      else [Part.text "done"]) throwingGateway "q" "locate" "include-pr" 5 false = .ok r :=
    ⟨_, rfl⟩
  exact ⟨r, hr, run_plan_is_turn_one _ throwingGateway "q" "locate" "include-pr" 5 false r
    (by omega) hr⟩

/-! ### C7: the one-shot fallback request -/

/-- C7 (amended).  The tool-free fallback request is issued iff the text
accumulated by the loop is empty or whitespace-only; it happens at most
once (`fallbackUsed` is a single flag guarding a single extra request);
and the terminal text is the accumulated (whitespace-only) loop text
with the fallback's text fragments appended — in particular it equals
the plain concatenation of the fragments whenever the loop text was
empty. -/
theorem run_fallback (script : Nat → List Part) (gw : Gateway)
    (q mode scope : String) (mt : Nat) (hs : Bool) (r : RunResult)
    (hr : run script gw q mode scope mt hs = .ok r) :
    (r.fallbackUsed = true ↔ pyStrip r.loopText = "")
    ∧ (r.fallbackUsed = true →
        r.finalText = r.loopText ++ concatTexts (script r.loopCalls))
    ∧ (r.fallbackUsed = false → r.finalText = r.loopText)
    ∧ (r.loopText = "" → r.finalText = concatTexts (script r.loopCalls)) := by
  unfold run at hr
  split at hr
  · exact absurd hr (by simp)
  · split at hr
    · exact absurd hr (by simp)
    · rw [Except.ok.injEq] at hr
      subst hr
      refine ⟨by simp, ?_, ?_, ?_⟩
      · intro hfb
        simp only at hfb ⊢
        rw [if_pos hfb]
      · intro hfb
        simp only at hfb ⊢
        rw [if_neg (by simp_all)]
      · intro hempty
        simp only at hempty ⊢
        rw [hempty]
        rw [if_pos (show (pyStrip "" == "") = true from rfl)]
        simp

/-- Witness for C7 (amended), on a run whose single turn answers with
text, so that no fallback is issued. -/
theorem run_fallback_witness :
    ∃ r, run (fun _ => [Part.text "hello"]) throwingGateway
        "q" "explain" "include-pr" 1 false = .ok r
      ∧ (r.fallbackUsed = true ↔ pyStrip r.loopText = "")
      ∧ (r.fallbackUsed = false → r.finalText = r.loopText) := by
  obtain ⟨r, hr⟩ : ∃ r, run (fun _ => [Part.text "hello"]) throwingGateway
      "q" "explain" "include-pr" 1 false = .ok r := ⟨_, rfl⟩
  exact ⟨r, hr,
    (run_fallback _ throwingGateway "q" "explain" "include-pr" 1 false r hr).1,
    (run_fallback _ throwingGateway "q" "explain" "include-pr" 1 false r hr).2.2.1⟩

/-- The responder script of the C7 counterexample: turn 1 returns the
single whitespace text fragment `" "`, the fallback returns `"A"`. -/
def c7Script : Nat → List Part :=
  fun n => if n = 0 then [Part.text " "] else [Part.text "A"]

/-- C7 counterexample: when the loop ends with whitespace-only (but
non-empty) accumulated text, the fallback is issued and the terminal
text is `" A"` — the fallback fragments are appended to the whitespace,
not substituted for it, so the terminal text is not the concatenation
`"A"` of the fallback's text fragments as the claim states. -/
theorem run_fallback_counterexample :
    (run c7Script throwingGateway "q" "explain" "include-pr" 3 false).map
        (fun r => (r.fallbackUsed, r.finalText, concatTexts (c7Script r.loopCalls)))
      = .ok (true, " A", "A")
    ∧ (" A" : String) ≠ "A" := by
  constructor
  · rfl
  · decide

/-! ### C9: one session update, after composition -/

/-- C9.  With a session collaborator attached, the session operations a
run emits are exactly one `add_query` followed by one `add_evidence` —
a single update block, produced after response composition (the loop
state cannot carry session operations): the query is stored with the
300-character-truncated answer text, and the persisted evidence
references are exactly the file-type citations; every persisted
reference stems from a citation with `source_type = "file"`, so issue
and PR citations are never persisted. -/
theorem run_session_update_once (script : Nat → List Part) (gw : Gateway)
    (q mode scope : String) (mt : Nat) (r : RunResult)
    (hr : run script gw q mode scope mt true = .ok r) :
    r.sessionOps
      = [SessionOp.addQuery q (pyTake r.final_response.answer_text 300),
         SessionOp.addEvidence (r.consolidated_evidence.filterMap fun c =>
           if c.source_type = "file" then
             some { file_path := c.file_path, start_line := c.start_line,
                    end_line := c.end_line }
           else none)]
    ∧ (∀ q' s', SessionOp.addQuery q' s' ∈ r.sessionOps → s'.length ≤ 300)
    ∧ (∀ refs, SessionOp.addEvidence refs ∈ r.sessionOps →
        ∀ ref ∈ refs, ∃ c ∈ r.consolidated_evidence,
          c.source_type = "file"
          ∧ ref = { file_path := c.file_path, start_line := c.start_line,
                    end_line := c.end_line }) := by
  unfold run at hr
  split at hr
  · exact absurd hr (by simp)
  · split at hr
    · exact absurd hr (by simp)
    · rw [Except.ok.injEq] at hr
      subst hr
      refine ⟨by simp, ?_, ?_⟩
      · intro q' s' hmem
        rw [if_pos rfl] at hmem
        rcases List.mem_cons.mp hmem with h | h
        · rw [SessionOp.addQuery.injEq] at h
          rw [h.2]
          simp only [pyTake, String.length]
          simpa using Nat.min_le_left 300 _
        · exfalso
          rcases List.mem_cons.mp h with h2 | h2
          · exact SessionOp.noConfusion h2
          · exact List.not_mem_nil _ h2
      · intro refs hmem ref href
        rw [if_pos rfl] at hmem
        have hrefs : refs = (consolidate_evidence
            (runLoop script gw scope mt 1 {}).executed).filterMap (fun c =>
              if c.source_type = "file" then
                some { file_path := c.file_path, start_line := c.start_line,
                       end_line := c.end_line }
              else none) := by
          rcases List.mem_cons.mp hmem with h | h
          · exact (SessionOp.noConfusion h : _)
          · rcases List.mem_cons.mp h with h2 | h2
            · rw [SessionOp.addEvidence.injEq] at h2
              exact h2
            · exact absurd h2 (List.not_mem_nil _)
        rw [hrefs] at href
        rw [List.mem_filterMap] at href
        obtain ⟨c, hc, hfc⟩ := href
        refine ⟨c, hc, ?_⟩
        by_cases hft : c.source_type = "file"
        · rw [if_pos hft] at hfc
          exact ⟨hft, (Option.some.injEq _ _ ▸ hfc).symm⟩
        · rw [if_neg hft] at hfc
          exact absurd hfc (by simp)

/-- Witness for C9: a concrete session-attached run whose single turn
answers with text. -/
theorem run_session_update_once_witness :
    ∃ r, run (fun _ => [Part.text "hello"]) throwingGateway
        "q" "explain" "include-pr" 1 true = .ok r
      ∧ r.sessionOps
          = [SessionOp.addQuery "q" (pyTake r.final_response.answer_text 300),
             SessionOp.addEvidence (r.consolidated_evidence.filterMap fun c =>
               if c.source_type = "file" then
                 some { file_path := c.file_path, start_line := c.start_line,
                        end_line := c.end_line }
               else none)] := by
  obtain ⟨r, hr⟩ : ∃ r, run (fun _ => [Part.text "hello"]) throwingGateway
      "q" "explain" "include-pr" 1 true = .ok r := ⟨_, rfl⟩
  exact ⟨r, hr,
    (run_session_update_once _ throwingGateway "q" "explain" "include-pr" 1 r hr).1⟩

/-! ### C5: patch extraction -/

theorem isPrefixOf_append_self (l1 l2 : List Char) : l1.isPrefixOf (l1 ++ l2) = true := by
  rw [List.isPrefixOf_iff_prefix]
  exact List.prefix_append _ _

theorem findSub_some_sound (pat : List Char) :
    ∀ (cs : List Char) (i : Nat), findSub pat cs = some i →
      pat.isPrefixOf (cs.drop i) = true := by
  intro cs
  induction cs with
  | nil =>
    intro i h
    unfold findSub at h
    by_cases hp : pat.isPrefixOf ([] : List Char) = true
    · rw [if_pos hp] at h
      rw [Option.some.injEq] at h
      subst h
      simpa using hp
    · rw [if_neg hp] at h
      exact absurd h (by simp)
  | cons c cs ih =>
    intro i h
    unfold findSub at h
    by_cases hp : pat.isPrefixOf (c :: cs) = true
    · rw [if_pos hp] at h
      rw [Option.some.injEq] at h
      subst h
      simpa using hp
    · rw [if_neg hp, Option.map_eq_some'] at h
      obtain ⟨j, hj, hij⟩ := h
      subst hij
      simpa using ih j hj

theorem findSub_first (pat : List Char) :
    ∀ (cs : List Char) (i : Nat), pat.isPrefixOf (cs.drop i) = true →
      (∀ j, j < i → pat.isPrefixOf (cs.drop j) = false) →
      findSub pat cs = some i := by
  intro cs
  induction cs with
  | nil =>
    intro i hp hmin
    cases i with
    | zero =>
      unfold findSub
      rw [if_pos (by simpa using hp)]
    | succ n =>
      exfalso
      have h0 := hmin 0 (by omega)
      rw [List.drop_nil] at h0
      rw [List.drop_nil] at hp
      rw [hp] at h0
      exact absurd h0 (by simp)
  | cons c cs ih =>
    intro i hp hmin
    cases i with
    | zero =>
      unfold findSub
      rw [if_pos (by simpa using hp)]
    | succ n =>
      have h0 : pat.isPrefixOf (c :: cs) = false := by simpa using hmin 0 (by omega)
      unfold findSub
      rw [if_neg (by simp [h0])]
      rw [ih n (by simpa using hp)
        (fun j hj => by simpa using hmin (j + 1) (by omega))]
      rfl

theorem takeWhile_dropWhile_append {α : Type} (p : α → Bool) (l1 : List α)
    (d : α) (l2 : List α) (h : ∀ x ∈ l1, p x = true) (hd : p d = false) :
    (l1 ++ d :: l2).takeWhile p = l1 ∧ (l1 ++ d :: l2).dropWhile p = d :: l2 := by
  induction l1 with
  | nil =>
    simp [List.takeWhile_cons, List.dropWhile_cons, hd]
  | cons a l1 ih =>
    have ha : p a = true := h a (by simp)
    obtain ⟨iht, ihd⟩ := ih (fun x hx => h x (by simp [hx]))
    constructor
    · simpa [List.takeWhile_cons, ha] using iht
    · simpa [List.dropWhile_cons, ha] using ihd

/-- C5.  In non-patch modes `patchDiff` is always absent; in patch mode
it is the first component of `_extract_patch`, which behaves as
specified: a fenced diff block (first opening fence, lazily-first
closing fence) yields the trimmed interior as the patch with the block
excised from the prose; with no fenced block, the lines from the first
unified-diff file-header onward become the patch and the preceding lines
the prose; with neither pattern the patch is absent and the text is
returned unchanged. -/
theorem compose_patch_extraction :
    (∀ (text : String) (ev : List Citation) (mode : String), mode ≠ "patch" →
      (composeResponse text ev mode).patch_diff = none)
    ∧ (∀ (text : String) (ev : List Citation),
      (composeResponse text ev "patch").patch_diff = (extract_patch text).1)
    ∧ (∀ (text : String) (pre mid post : List Char),
      text.toList = pre ++ FENCE_OPEN ++ mid ++ FENCE_CLOSE ++ post →
      (∀ j, j < pre.length → FENCE_OPEN.isPrefixOf (text.toList.drop j) = false) →
      (∀ j, j < mid.length →
        FENCE_CLOSE.isPrefixOf ((mid ++ FENCE_CLOSE ++ post).drop j) = false) →
      extract_patch text = (some (pyStrip ⟨mid⟩), pyStrip ⟨pre ++ post⟩))
    ∧ (∀ (text : String), ¬ HasFencedDiff text.toList →
      (∀ l ∈ splitNL text.toList, isDiffMarker l = false) →
      extract_patch text = (none, text))
    ∧ (∀ (text : String) (pro : List (List Char)) (d : List Char)
        (ds : List (List Char)), ¬ HasFencedDiff text.toList →
      splitNL text.toList = pro ++ d :: ds →
      (∀ l ∈ pro, isDiffMarker l = false) →
      isDiffMarker d = true →
      extract_patch text = (some ⟨joinNL (d :: ds)⟩, ⟨joinNL pro⟩)) := by
  have hNoFence : ∀ (text : String), ¬ HasFencedDiff text.toList →
      extract_patch text = extractPatchLines text := by
    intro text hnf
    cases hopen : findSub FENCE_OPEN text.toList with
    | none => simp only [extract_patch, hopen]
    | some i =>
      cases hclose : findSub FENCE_CLOSE (text.toList.drop (i + 8)) with
      | none => simp only [extract_patch, hopen, hclose]
      | some j =>
        exfalso
        apply hnf
        refine ⟨i, i + 8 + j, findSub_some_sound _ _ _ hopen, by omega, ?_⟩
        have := findSub_some_sound _ _ _ hclose
        rwa [List.drop_drop] at this
  refine ⟨?_, ?_, ?_, ?_, ?_⟩
  · intro text ev mode hmode
    unfold composeResponse
    rw [if_neg hmode]
  · intro text ev
    unfold composeResponse
    rw [if_pos rfl]
  · intro text pre mid post hdec hpre hmid
    have hassoc1 : pre ++ FENCE_OPEN ++ mid ++ FENCE_CLOSE ++ post
        = pre ++ (FENCE_OPEN ++ (mid ++ FENCE_CLOSE ++ post)) := by simp
    have hopenlen : FENCE_OPEN.length = 8 := by decide
    have hcloselen : FENCE_CLOSE.length = 3 := by decide
    have hopen : findSub FENCE_OPEN text.toList = some pre.length := by
      apply findSub_first
      · rw [hdec, hassoc1, List.drop_left]
        exact isPrefixOf_append_self _ _
      · exact hpre
    have hdrop8 : text.toList.drop (pre.length + 8) = mid ++ FENCE_CLOSE ++ post := by
      rw [hdec]
      rw [show pre ++ FENCE_OPEN ++ mid ++ FENCE_CLOSE ++ post
          = (pre ++ FENCE_OPEN) ++ (mid ++ FENCE_CLOSE ++ post) by simp]
      rw [show pre.length + 8 = (pre ++ FENCE_OPEN).length by
        simp [hopenlen]]
      exact List.drop_left _ _
    have hclose : findSub FENCE_CLOSE (text.toList.drop (pre.length + 8))
        = some mid.length := by
      rw [hdrop8]
      apply findSub_first
      · rw [show mid ++ FENCE_CLOSE ++ post = mid ++ (FENCE_CLOSE ++ post) by simp,
          List.drop_left]
        exact isPrefixOf_append_self _ _
      · exact hmid
    have hpatch : (text.toList.drop (pre.length + 8)).take mid.length = mid := by
      rw [hdrop8, show mid ++ FENCE_CLOSE ++ post = mid ++ (FENCE_CLOSE ++ post) by simp,
        List.take_left]
    have htake : text.toList.take pre.length = pre := by
      rw [hdec, hassoc1, List.take_left]
    have hdropEnd : text.toList.drop (pre.length + 8 + mid.length + 3) = post := by
      rw [hdec]
      rw [show pre ++ FENCE_OPEN ++ mid ++ FENCE_CLOSE ++ post
          = (pre ++ FENCE_OPEN ++ mid ++ FENCE_CLOSE) ++ post by simp]
      rw [show pre.length + 8 + mid.length + 3
          = (pre ++ FENCE_OPEN ++ mid ++ FENCE_CLOSE).length by
        simp [hopenlen, hcloselen]
        omega]
      exact List.drop_left _ _
    simp only [extract_patch, hopen, hclose, hpatch, htake, hdropEnd]
  · intro text hnf hmark
    rw [hNoFence text hnf]
    have hdw : (splitNL text.toList).dropWhile (fun l => !isDiffMarker l) = [] := by
      rw [List.dropWhile_eq_nil_iff]
      intro l hl
      simp [hmark l hl]
    simp only [extractPatchLines, hdw, List.isEmpty_nil]
    rw [if_pos trivial]
  · intro text pro d ds hnf hsplit hpro hd
    rw [hNoFence text hnf]
    obtain ⟨htw, hdw⟩ := takeWhile_dropWhile_append (fun l => !isDiffMarker l) pro d ds
      (fun x hx => by simp [hpro x hx]) (by simp [hd])
    simp only [extractPatchLines, hsplit, htw, hdw, List.isEmpty_cons]
    rfl

/-- Witness for C5: a concrete prose+fenced-diff text, plus the gating
of patch extraction away from non-patch modes. -/
theorem compose_patch_extraction_witness :
    extract_patch "Intro\n```diff\n--- a\n+++ b\n```\nTail"
        = (some (pyStrip ⟨("--- a\n+++ b\n").toList⟩),
           pyStrip ⟨("Intro\n").toList ++ ("\nTail").toList⟩)
    ∧ (composeResponse "plain" [] "explain").patch_diff = none := by
  constructor
  · exact compose_patch_extraction.2.2.1 "Intro\n```diff\n--- a\n+++ b\n```\nTail"
      ("Intro\n").toList ("--- a\n+++ b\n").toList ("\nTail").toList
      (by decide) (by decide) (by decide)
  · exact compose_patch_extraction.1 "plain" [] "explain" (by decide)

/-! ### C6: next-actions extraction -/

theorem matchCI_some : ∀ (base cs r : List Char), matchCI base cs = some r →
    ∃ c, cs = c ++ r ∧ c.map Char.toLower = base ∧ c.length = base.length := by
  intro base
  induction base with
  | nil =>
    intro cs r h
    unfold matchCI at h
    rw [Option.some.injEq] at h
    exact ⟨[], by rw [h]; rfl, rfl, rfl⟩
  | cons p ps ih =>
    intro cs r h
    cases cs with
    | nil => exact absurd h (by simp [matchCI])
    | cons c cs =>
      unfold matchCI at h
      by_cases hp : (p == c.toLower) = true
      · rw [if_pos hp] at h
        obtain ⟨d, hd, hmap, hlen⟩ := ih cs r h
        refine ⟨c :: d, by rw [List.cons_append, hd], ?_, by simp [hlen]⟩
        simp only [List.map_cons, hmap]
        rw [show c.toLower = p from (beq_iff_eq.mp hp).symm]
      · rw [if_neg hp] at h
        exact absurd h (by simp)

theorem wsRems_suffix (cs : List Char) : ∀ r ∈ wsRems cs, ∃ u, cs = u ++ r := by
  intro r hr
  unfold wsRems at hr
  rw [List.mem_map] at hr
  obtain ⟨k, _, hk⟩ := hr
  refine ⟨cs.take ((cs.takeWhile pyIsSpace).length - k), ?_⟩
  rw [← hk]
  exact (List.take_append_drop _ _).symm

theorem sepCandidates_decomp (cs : List Char) :
    ∀ r ∈ sepCandidates cs, ∃ u, cs = u ++ '\n' :: r := by
  intro r hr
  unfold sepCandidates at hr
  rw [List.mem_flatMap] at hr
  obtain ⟨r1, hr1, hr'⟩ := hr
  rw [List.mem_flatMap] at hr'
  obtain ⟨r2, hr2, hr''⟩ := hr'
  rw [List.mem_filterMap] at hr''
  obtain ⟨r3, hr3, hmatch⟩ := hr''
  obtain ⟨u1, hu1⟩ := wsRems_suffix cs r1 hr1
  have hu2 : ∃ u2, r1 = u2 ++ r2 := by
    cases r1 with
    | nil =>
      simp only [colonOpts, List.mem_singleton] at hr2
      exact ⟨[], by rw [hr2]; rfl⟩
    | cons a rr =>
      simp only [colonOpts] at hr2
      by_cases ha : a = ':'
      · rw [if_pos ha] at hr2
        simp only [List.mem_cons, List.mem_singleton, List.not_mem_nil, or_false] at hr2
        rcases hr2 with h | h
        · exact ⟨[a], by rw [h]; rfl⟩
        · exact ⟨[], by rw [h]; rfl⟩
      · rw [if_neg ha] at hr2
        simp only [List.mem_singleton] at hr2
        exact ⟨[], by rw [hr2]; rfl⟩
  obtain ⟨u2, hu2⟩ := hu2
  obtain ⟨u3, hu3⟩ := wsRems_suffix r2 r3 hr3
  have hr4 : r3 = '\n' :: r := by
    cases r3 with
    | nil => exact absurd hmatch (by simp [afterNewline])
    | cons c r4 =>
      simp only [afterNewline] at hmatch
      by_cases hc : c = '\n'
      · rw [if_pos hc] at hmatch
        rw [Option.some.injEq] at hmatch
        rw [hc, hmatch]
      · rw [if_neg hc] at hmatch
        exact absurd hmatch (by simp)
  refine ⟨u1 ++ u2 ++ u3, ?_⟩
  rw [hu1, hu2, hu3, hr4]
  simp

theorem isMarkerChar_ne_newline (c : Char) (h : isMarkerChar c = true) : ¬ c = '\n' := by
  intro hc
  rw [hc] at h
  exact absurd h (by decide)

theorem isListLineStart_head (cs : List Char) (h : isListLineStart cs = true) :
    ∃ c cs', cs = c :: cs' ∧ ¬ c = '\n' := by
  cases cs with
  | nil => exact absurd h (by simp [isListLineStart])
  | cons c cs =>
    refine ⟨c, cs, rfl, ?_⟩
    unfold isListLineStart at h
    by_cases hsp : (c == ' ' || c == '\t') = true
    · rcases (by simpa using hsp : c = ' ' ∨ c = '\t') with hc | hc <;> simp [hc]
    · rw [if_neg hsp] at h
      exact isMarkerChar_ne_newline c h

theorem isListLineStart_takeWhile :
    ∀ (cs : List Char), isListLineStart cs = true →
      isListLineStart (cs.takeWhile (fun c => decide (c ≠ '\n'))) = true := by
  intro cs
  induction cs with
  | nil => intro h; exact absurd h (by simp [isListLineStart])
  | cons c cs ih =>
    intro h
    unfold isListLineStart at h
    by_cases hsp : (c == ' ' || c == '\t') = true
    · have hcne : decide (c ≠ '\n') = true := by
        rcases (by simpa using hsp : c = ' ' ∨ c = '\t') with hc | hc <;> simp [hc]
      rw [List.takeWhile_cons, if_pos hcne]
      rw [if_pos hsp] at h
      simp only [isListLineStart]
      rw [if_pos hsp]
      exact ih h
    · rw [if_neg hsp] at h
      have hcne : decide (c ≠ '\n') = true := by
        simp [isMarkerChar_ne_newline c h]
      rw [List.takeWhile_cons, if_pos hcne]
      simp only [isListLineStart]
      rw [if_neg hsp]
      exact h

theorem takeWhile_ne_nil_of_ls (cs : List Char) (h : isListLineStart cs = true) :
    cs.takeWhile (fun c => decide (c ≠ '\n')) ≠ [] := by
  obtain ⟨c, cs', hcs, hc⟩ := isListLineStart_head cs h
  rw [hcs, List.takeWhile_cons]
  rw [show decide (c ≠ '\n') = true by simp [hc]]
  simp

theorem dropWhile_head_newline :
    ∀ (cs : List Char) (d : Char) (r : List Char),
      cs.dropWhile (fun c => decide (c ≠ '\n')) = d :: r → d = '\n' := by
  intro cs
  induction cs with
  | nil => intro d r h; exact absurd h (by simp)
  | cons c cs ih =>
    intro d r h
    rw [List.dropWhile_cons] at h
    by_cases hc : c = '\n'
    · rw [show decide (c ≠ '\n') = false by simp [hc]] at h
      simp only [Bool.false_eq_true, if_false] at h
      rw [List.cons.injEq] at h
      rw [← h.1, hc]
    · rw [show decide (c ≠ '\n') = true by simp [hc]] at h
      simp only [if_true] at h
      exact ih d r h

theorem splitNL_append (l rest : List Char) (h : ∀ c ∈ l, ¬ c = '\n') :
    splitNL (l ++ '\n' :: rest) = l :: splitNL rest := by
  have hp : ∀ x ∈ l, (fun c => decide (c ≠ '\n')) x = true := fun x hx => by simp [h x hx]
  obtain ⟨htw, hdw⟩ := takeWhile_dropWhile_append (fun c => decide (c ≠ '\n'))
    l '\n' rest hp (by simp)
  have hcons : ∃ a t, l ++ '\n' :: rest = a :: t := by
    cases l with
    | nil => exact ⟨'\n', rest, rfl⟩
    | cons a l' => exact ⟨a, l' ++ '\n' :: rest, rfl⟩
  obtain ⟨a, t, hat⟩ := hcons
  rw [hat, splitNL, ← hat]
  split
  · rename_i heq
    rw [hdw] at heq
    exact absurd heq (by simp)
  · rename_i head r' heq
    rw [hdw] at heq
    rw [List.cons.injEq] at heq
    rw [htw, ← heq.2]

theorem splitNL_single (l : List Char) (hne : l ≠ []) (h : ∀ c ∈ l, ¬ c = '\n') :
    splitNL l = [l] := by
  cases l with
  | nil => exact absurd rfl hne
  | cons a l' =>
    have htw : (a :: l').takeWhile (fun c => decide (c ≠ '\n')) = a :: l' := by
      rw [List.takeWhile_eq_self_iff]
      intro x hx
      simp [h x hx]
    have hdw : (a :: l').dropWhile (fun c => decide (c ≠ '\n')) = [] := by
      rw [List.dropWhile_eq_nil_iff]
      intro x hx
      simp [h x hx]
    rw [splitNL]
    split
    · rw [htw]
    · rename_i head r' heq
      rw [hdw] at heq
      exact absurd heq (by simp)

theorem mem_takeWhile_not_newline (cs : List Char) (c : Char)
    (h : c ∈ cs.takeWhile (fun c => decide (c ≠ '\n'))) : ¬ c = '\n' := by
  have := List.mem_takeWhile_imp h
  simpa using this

theorem splitNL_nil : splitNL [] = [] := by
  rw [splitNL]

theorem takeListLines_sound :
    ∀ (n : Nat) (cs : List Char), cs.length ≤ n → isListLineStart cs = true →
      cs = (takeListLines cs).1 ++ (takeListLines cs).2
      ∧ (takeListLines cs).1 ≠ []
      ∧ ∀ l ∈ splitNL (takeListLines cs).1, isListLineStart l = true := by
  intro n
  induction n with
  | zero =>
    intro cs hlen h
    have hnil : cs = [] := List.length_eq_zero.mp (by omega)
    rw [hnil] at h
    exact absurd h (by simp [isListLineStart])
  | succ n ih =>
    intro cs hlen h
    rw [takeListLines, if_pos h]
    split
    · rename_i heq
      refine ⟨?_, takeWhile_ne_nil_of_ls cs h, ?_⟩
      · rw [List.append_nil]
        conv_lhs => rw [← List.takeWhile_append_dropWhile (fun c => decide (c ≠ '\n')) cs]
        rw [heq, List.append_nil]
      · intro l hl
        rw [splitNL_single _ (takeWhile_ne_nil_of_ls cs h)
          (fun c hc => mem_takeWhile_not_newline cs c hc)] at hl
        rw [List.mem_singleton] at hl
        rw [hl]
        exact isListLineStart_takeWhile cs h
    · rename_i d r' heq
      have hd : d = '\n' := dropWhile_head_newline cs d r' heq
      have hsplitcs : cs = cs.takeWhile (fun c => decide (c ≠ '\n')) ++ '\n' :: r' := by
        conv_lhs => rw [← List.takeWhile_append_dropWhile (fun c => decide (c ≠ '\n')) cs]
        rw [heq, hd]
      have hr'len : r'.length ≤ n := by
        have h1 : (cs.dropWhile (fun c => decide (c ≠ '\n'))).length ≤ cs.length :=
          (List.dropWhile_sublist _).length_le
        rw [heq] at h1
        simp only [List.length_cons] at h1
        omega
      by_cases hls : isListLineStart r' = true
      · rw [if_pos hls]
        obtain ⟨ihsplit, ihne, ihlines⟩ := ih r' hr'len hls
        refine ⟨?_, by simp, ?_⟩
        · conv_lhs => rw [hsplitcs]
          conv_lhs => rw [ihsplit]
          simp
        · intro l hl
          rw [splitNL_append _ _ (fun c hc => mem_takeWhile_not_newline cs c hc)] at hl
          rw [List.mem_cons] at hl
          rcases hl with hl | hl
          · rw [hl]
            exact isListLineStart_takeWhile cs h
          · exact ihlines l hl
      · rw [if_neg hls]
        refine ⟨?_, by simp, ?_⟩
        · conv_lhs => rw [hsplitcs]
          simp
        · intro l hl
          rw [show cs.takeWhile (fun c => decide (c ≠ '\n')) ++ ['\n']
              = cs.takeWhile (fun c => decide (c ≠ '\n')) ++ '\n' :: ([] : List Char)
            from rfl] at hl
          rw [splitNL_append _ _ (fun c hc => mem_takeWhile_not_newline cs c hc),
            splitNL_nil] at hl
          have hle : l = cs.takeWhile (fun c => decide (c ≠ '\n')) := by simpa using hl
          rw [hle]
          exact isListLineStart_takeWhile cs h

theorem headingRems_mem (cs : List Char) :
    ∀ hr ∈ headingRems cs, ∃ base ∈ NA_HEADINGS, ∃ c, cs = c ++ hr
      ∧ base.length ≤ c.length ∧ (c.take base.length).map Char.toLower = base := by
  intro hr hmem
  unfold headingRems at hmem
  rw [List.mem_flatMap] at hmem
  obtain ⟨base, hbase, hin⟩ := hmem
  refine ⟨base, hbase, ?_⟩
  rcases hm : matchCI base cs with _ | r
  · simp only [hm] at hin
    exact absurd hin (by simp)
  · simp only [hm] at hin
    obtain ⟨c, hc, hmap, hlen⟩ := matchCI_some base cs r hm
    cases r with
    | nil =>
      simp only [sOpts, List.mem_singleton] at hin
      refine ⟨c, by rw [hc, hin], by omega, ?_⟩
      rw [← hlen, List.take_length, hmap]
    | cons c0 r' =>
      simp only [sOpts] at hin
      by_cases hs : (c0.toLower == 's') = true
      · rw [if_pos hs] at hin
        rw [List.mem_cons, List.mem_singleton] at hin
        rcases hin with h | h
        · refine ⟨c ++ [c0], ?_, by simp; omega, ?_⟩
          · rw [hc, h]
            simp
          · rw [List.take_append_of_le_length (by omega), ← hlen, List.take_length, hmap]
        · refine ⟨c, by rw [hc, h], by omega, ?_⟩
          rw [← hlen, List.take_length, hmap]
      · rw [if_neg hs] at hin
        rw [List.mem_singleton] at hin
        refine ⟨c, by rw [hc, hin], by omega, ?_⟩
        rw [← hlen, List.take_length, hmap]

theorem tryNA_sound (cs b r : List Char) (h : tryNA cs = some (b, r)) :
    ∃ hs, cs = hs ++ b ++ r ∧ hs ≠ [] ∧ hs.getLast? = some '\n'
      ∧ (∃ base ∈ NA_HEADINGS, base.length ≤ hs.length
           ∧ (hs.take base.length).map Char.toLower = base)
      ∧ b ≠ [] ∧ ∀ l ∈ splitNL b, isListLineStart l = true := by
  unfold tryNA at h
  obtain ⟨hr, hhr, hf⟩ := List.exists_of_findSome?_eq_some h
  rw [Option.map_eq_some'] at hf
  obtain ⟨r2, hfind, htll⟩ := hf
  have hr2sep : r2 ∈ sepCandidates hr := List.mem_of_find?_eq_some hfind
  have hr2ls : isListLineStart r2 = true := List.find?_some hfind
  obtain ⟨u, hu⟩ := sepCandidates_decomp hr r2 hr2sep
  obtain ⟨base, hbase, c, hcs, hblen, hbmap⟩ := headingRems_mem cs hr hhr
  obtain ⟨hsplit, hbne, hlines⟩ :=
    takeListLines_sound r2.length r2 (le_refl _) hr2ls
  rw [htll] at hsplit hbne hlines
  refine ⟨c ++ u ++ ['\n'], ?_, by simp, ?_, ?_, hbne, hlines⟩
  · rw [hcs, hu, hsplit]
    simp
  · rw [List.append_assoc, List.getLast?_append, List.getLast?_concat]
    rfl
  · refine ⟨base, hbase, ?_, ?_⟩
    · simp only [List.length_append]
      omega
    · rw [List.append_assoc]
      rw [List.take_append_of_le_length hblen, hbmap]

theorem scanNA_sound : ∀ (cs : List Char) (n s : Nat) (b r : List Char),
    scanNA n cs = some (s, b, r) →
    ∃ k, s = n + k ∧ tryNA (cs.drop k) = some (b, r) := by
  intro cs
  induction cs with
  | nil =>
    intro n s b r h
    unfold scanNA at h
    rw [Option.map_eq_some'] at h
    obtain ⟨p, hp, heq⟩ := h
    refine ⟨0, ?_, ?_⟩
    · have h1 : n = s := by
        have := congrArg Prod.fst heq
        simpa using this
      omega
    · rw [List.drop_nil, hp]
      have h2 : p = (b, r) := by
        have := congrArg Prod.snd heq
        simpa using this
      rw [h2]
  | cons c cs ih =>
    intro n s b r h
    unfold scanNA at h
    rcases ht : tryNA (c :: cs) with _ | p
    · rw [ht] at h
      obtain ⟨k, hk, htry⟩ := ih (n + 1) s b r h
      refine ⟨k + 1, by omega, ?_⟩
      simpa using htry
    · rw [ht] at h
      rw [Option.some.injEq] at h
      have h1 : n = s := by
        have := congrArg Prod.fst h
        simpa using this
      have h2 : p = (b, r) := by
        have := congrArg Prod.snd h
        simpa using this
      refine ⟨0, by omega, ?_⟩
      rw [List.drop_zero, ht, h2]

/-! Completeness direction of the next-actions matcher: a text that
begins with a heading word (any capitalization, optional trailing `s`),
an optional colon, a newline and a run of list-item lines is matched at
position 0, and the extractor returns exactly the block's items. -/

theorem isListLineStart_head_cases (cs : List Char) (h : isListLineStart cs = true) :
    ∃ c cs', cs = c :: cs' ∧ ((c == ' ' || c == '\t') = true ∨ isMarkerChar c = true) := by
  cases cs with
  | nil => exact absurd h (by simp [isListLineStart])
  | cons c cs =>
    refine ⟨c, cs, rfl, ?_⟩
    by_cases hsp : (c == ' ' || c == '\t') = true
    · exact Or.inl hsp
    · right
      simp only [isListLineStart] at h
      rwa [if_neg hsp] at h

theorem afterNewline_of_ls (r : List Char) (h : isListLineStart r = true) :
    afterNewline r = none := by
  obtain ⟨c, cs', rfl, hcase⟩ := isListLineStart_head_cases r h
  have hc : ¬ c = '\n' := by
    intro hc
    subst hc
    rcases hcase with h' | h' <;> exact absurd h' (by decide)
  simp only [afterNewline]
  rw [if_neg hc]

theorem colonOpts_of_ls (r : List Char) (h : isListLineStart r = true) :
    colonOpts r = [r] := by
  obtain ⟨c, cs', rfl, hcase⟩ := isListLineStart_head_cases r h
  have hc : ¬ c = ':' := by
    intro hc
    subst hc
    rcases hcase with h' | h' <;> exact absurd h' (by decide)
  simp only [colonOpts]
  rw [if_neg hc]

theorem isMarkerChar_not_space (c : Char) (h : isMarkerChar c = true) :
    pyIsSpace c = false := by
  have h1 : ¬ c = ' ' := by intro he; rw [he] at h; exact absurd h (by decide)
  have h2 : ¬ c = '\t' := by intro he; rw [he] at h; exact absurd h (by decide)
  have h3 : ¬ c = '\n' := by intro he; rw [he] at h; exact absurd h (by decide)
  have h4 : ¬ c = '\r' := by intro he; rw [he] at h; exact absurd h (by decide)
  have h5 : ¬ c = '\x0b' := by intro he; rw [he] at h; exact absurd h (by decide)
  have h6 : ¬ c = '\x0c' := by intro he; rw [he] at h; exact absurd h (by decide)
  simp [pyIsSpace, h1, h2, h3, h4, h5, h6]

theorem wsRems_cons_space (c : Char) (cs : List Char) (hc : pyIsSpace c = true) :
    wsRems (c :: cs) = wsRems cs ++ [c :: cs] := by
  simp only [wsRems]
  rw [show (c :: cs).takeWhile pyIsSpace = c :: cs.takeWhile pyIsSpace from by
    rw [List.takeWhile_cons, if_pos hc]]
  simp only [List.length_cons]
  rw [List.range_succ, List.map_append]
  congr 1
  · refine List.map_congr_left ?_
    intro k hk
    rw [List.mem_range] at hk
    rw [show (cs.takeWhile pyIsSpace).length + 1 - k
        = ((cs.takeWhile pyIsSpace).length - k) + 1 by omega]
    rfl
  · simp

theorem wsRems_of_not_space (c : Char) (cs : List Char) (hc : pyIsSpace c = false) :
    wsRems (c :: cs) = [c :: cs] := by
  simp only [wsRems]
  rw [show (c :: cs).takeWhile pyIsSpace = [] from by
    rw [List.takeWhile_cons, if_neg (by simp [hc])]]
  simp

theorem wsRems_all_ls : ∀ (cs : List Char), isListLineStart cs = true →
    ∀ r ∈ wsRems cs, isListLineStart r = true := by
  intro cs
  induction cs with
  | nil => intro h; exact absurd h (by simp [isListLineStart])
  | cons c cs ih =>
    intro h r hr
    by_cases hsp : (c == ' ' || c == '\t') = true
    · have hc : pyIsSpace c = true := by
        rcases (by simpa using hsp : c = ' ' ∨ c = '\t') with hc | hc <;>
          simp [pyIsSpace, hc]
      have hcs : isListLineStart cs = true := by
        simp only [isListLineStart] at h
        rwa [if_pos hsp] at h
      rw [wsRems_cons_space c cs hc, List.mem_append] at hr
      rcases hr with hr | hr
      · exact ih hcs r hr
      · rw [List.mem_singleton] at hr
        rw [hr]
        exact h
    · have hmk : isMarkerChar c = true := by
        simp only [isListLineStart] at h
        rwa [if_neg hsp] at h
      rw [wsRems_of_not_space c cs (isMarkerChar_not_space c hmk),
        List.mem_singleton] at hr
      rw [hr]
      exact h

theorem wsRems_afterNewline_nil (cs : List Char) (h : isListLineStart cs = true) :
    (wsRems cs).filterMap afterNewline = [] := by
  rw [List.filterMap_eq_nil_iff]
  intro r hr
  exact afterNewline_of_ls r (wsRems_all_ls cs h r hr)

theorem wsRems_afterNewline_newline (cs : List Char) (h : isListLineStart cs = true) :
    (wsRems ('\n' :: cs)).filterMap afterNewline = [cs] := by
  rw [wsRems_cons_space '\n' cs (by decide), List.filterMap_append,
    wsRems_afterNewline_nil cs h]
  have hx : afterNewline ('\n' :: cs) = some cs := by
    simp only [afterNewline]
    rw [if_pos trivial]
  simp only [List.nil_append, List.filterMap_cons, hx, List.filterMap_nil]

theorem sepCandidates_canonical (colonPart cs' : List Char)
    (hcolon : colonPart = [] ∨ colonPart = [':'])
    (hls : isListLineStart cs' = true) :
    sepCandidates (colonPart ++ '\n' :: cs') = [cs'] := by
  have hinner : ∀ r1, isListLineStart r1 = true →
      (colonOpts r1).flatMap (fun r2 => (wsRems r2).filterMap afterNewline) = [] := by
    intro r1 h1
    rw [colonOpts_of_ls r1 h1]
    simp only [List.flatMap_cons, List.flatMap_nil, List.append_nil]
    exact wsRems_afterNewline_nil r1 h1
  rcases hcolon with rfl | rfl
  · show sepCandidates ('\n' :: cs') = [cs']
    unfold sepCandidates
    rw [wsRems_cons_space '\n' cs' (by decide), List.flatMap_append]
    have h1 : (wsRems cs').flatMap
        (fun r1 => (colonOpts r1).flatMap fun r2 =>
          (wsRems r2).filterMap afterNewline) = [] :=
      List.flatMap_eq_nil_iff.mpr
        (fun r1 hr1 => hinner r1 (wsRems_all_ls cs' hls r1 hr1))
    rw [h1, List.nil_append]
    simp only [List.flatMap_cons, List.flatMap_nil, List.append_nil]
    rw [show colonOpts ('\n' :: cs') = ['\n' :: cs'] from by
      simp only [colonOpts]
      rw [if_neg (by decide)]]
    simp only [List.flatMap_cons, List.flatMap_nil, List.append_nil]
    exact wsRems_afterNewline_newline cs' hls
  · show sepCandidates (':' :: '\n' :: cs') = [cs']
    unfold sepCandidates
    rw [wsRems_of_not_space ':' ('\n' :: cs') (by decide)]
    simp only [List.flatMap_cons, List.flatMap_nil, List.append_nil]
    rw [show colonOpts (':' :: '\n' :: cs') = ['\n' :: cs', ':' :: '\n' :: cs'] from by
      simp only [colonOpts]
      rw [if_pos trivial]]
    simp only [List.flatMap_cons, List.flatMap_nil]
    rw [wsRems_afterNewline_newline cs' hls,
      wsRems_of_not_space ':' ('\n' :: cs') (by decide)]
    have hx : afterNewline (':' :: '\n' :: cs') = none := by
      simp only [afterNewline]
      rw [if_neg (by decide)]
    simp only [List.filterMap_cons, hx, List.filterMap_nil, List.append_nil]

theorem matchCI_complete : ∀ (hw tail : List Char),
    matchCI (hw.map Char.toLower) (hw ++ tail) = some tail := by
  intro hw
  induction hw with
  | nil => intro tail; rfl
  | cons c hw ih =>
    intro tail
    simp only [List.map_cons, List.cons_append, matchCI]
    rw [if_pos (by simp)]
    exact ih tail

theorem matchCI_none_of_mismatch (base' hw tail : List Char) (i : Nat)
    (hi : i < hw.length) (hib : i < base'.length)
    (hne : base'[i]? ≠ (hw.map Char.toLower)[i]?) :
    matchCI base' (hw ++ tail) = none := by
  rcases hm : matchCI base' (hw ++ tail) with _ | r
  · rfl
  · exfalso
    obtain ⟨cp, hc, hmap, hlen⟩ := matchCI_some base' (hw ++ tail) r hm
    apply hne
    have hic : i < cp.length := by omega
    rw [← hmap, List.getElem?_map, List.getElem?_map]
    have h1 : (cp ++ r)[i]? = cp[i]? := List.getElem?_append_left hic
    have h2 : (hw ++ tail)[i]? = hw[i]? := List.getElem?_append_left hi
    rw [← h1, ← hc, h2]

theorem matchCI_none_table (base' hw tail L : List Char)
    (h : hw.map Char.toLower = L) (i : Nat)
    (hib : i < base'.length) (hiL : i < L.length)
    (hne : base'[i]? ≠ L[i]?) :
    matchCI base' (hw ++ tail) = none := by
  have hlen : hw.length = L.length := by
    have := congrArg List.length h
    simpa using this
  apply matchCI_none_of_mismatch base' hw tail i (by omega) hib
  rw [h]
  exact hne

theorem map_toLower_concat_split (hw base : List Char)
    (h : hw.map Char.toLower = base ++ ['s']) :
    ∃ hw0 sc, hw = hw0 ++ [sc] ∧ hw0.map Char.toLower = base ∧ sc.toLower = 's' := by
  have hne : hw ≠ [] := by
    intro he
    rw [he] at h
    exact absurd h (by simp)
  have h2 : hw.dropLast.map Char.toLower ++ [(hw.getLast hne).toLower]
      = base ++ ['s'] := by
    rw [show hw.dropLast.map Char.toLower ++ [(hw.getLast hne).toLower]
        = (hw.dropLast ++ [hw.getLast hne]).map Char.toLower from by
      rw [List.map_append]
      rfl]
    rw [List.dropLast_append_getLast hne]
    exact h
  obtain ⟨h3, h4⟩ := List.append_inj' h2 (by simp)
  exact ⟨hw.dropLast, hw.getLast hne, (List.dropLast_append_getLast hne).symm, h3,
    by simpa using h4⟩

theorem sOpts_not_s (c : Char) (r : List Char) (hc : (c.toLower == 's') = false) :
    sOpts (c :: r) = [c :: r] := by
  simp only [sOpts]
  rw [if_neg (by simp [hc])]

theorem sOpts_s (sc : Char) (r : List Char) (hs : sc.toLower = 's') :
    sOpts (sc :: r) = [r, sc :: r] := by
  simp only [sOpts]
  rw [if_pos (by simp [hs])]

theorem headingRems_canonical (hw tail base : List Char)
    (hbase : base ∈ NA_HEADINGS)
    (hmap : hw.map Char.toLower = base ∨ hw.map Char.toLower = base ++ ['s'])
    (hts : sOpts tail = [tail]) :
    ∃ rest, headingRems (hw ++ tail) = tail :: rest := by
  have hbase4 : base = ("next action").toList ∨ base = ("next step").toList
      ∨ base = ("suggested step").toList ∨ base = ("recommendation").toList := by
    simpa [NA_HEADINGS] using hbase
  rcases hmap with h | h
  · have hsome : matchCI base (hw ++ tail) = some tail := by
      rw [← h]
      exact matchCI_complete hw tail
    rcases hbase4 with rfl | rfl | rfl | rfl
    · have hn2 : matchCI (("next step").toList) (hw ++ tail) = none :=
        matchCI_none_table _ hw tail _ h 5 (by decide) (by decide) (by decide)
      have hn3 : matchCI (("suggested step").toList) (hw ++ tail) = none :=
        matchCI_none_table _ hw tail _ h 0 (by decide) (by decide) (by decide)
      have hn4 : matchCI (("recommendation").toList) (hw ++ tail) = none :=
        matchCI_none_table _ hw tail _ h 0 (by decide) (by decide) (by decide)
      refine ⟨[], ?_⟩
      simp only [headingRems, NA_HEADINGS, List.map_cons, List.map_nil,
        List.flatMap_cons, List.flatMap_nil, hsome, hn2, hn3, hn4, hts,
        List.append_nil, List.nil_append]
    · have hn1 : matchCI (("next action").toList) (hw ++ tail) = none :=
        matchCI_none_table _ hw tail _ h 5 (by decide) (by decide) (by decide)
      have hn3 : matchCI (("suggested step").toList) (hw ++ tail) = none :=
        matchCI_none_table _ hw tail _ h 0 (by decide) (by decide) (by decide)
      have hn4 : matchCI (("recommendation").toList) (hw ++ tail) = none :=
        matchCI_none_table _ hw tail _ h 0 (by decide) (by decide) (by decide)
      refine ⟨[], ?_⟩
      simp only [headingRems, NA_HEADINGS, List.map_cons, List.map_nil,
        List.flatMap_cons, List.flatMap_nil, hsome, hn1, hn3, hn4, hts,
        List.append_nil, List.nil_append]
    · have hn1 : matchCI (("next action").toList) (hw ++ tail) = none :=
        matchCI_none_table _ hw tail _ h 0 (by decide) (by decide) (by decide)
      have hn2 : matchCI (("next step").toList) (hw ++ tail) = none :=
        matchCI_none_table _ hw tail _ h 0 (by decide) (by decide) (by decide)
      have hn4 : matchCI (("recommendation").toList) (hw ++ tail) = none :=
        matchCI_none_table _ hw tail _ h 0 (by decide) (by decide) (by decide)
      refine ⟨[], ?_⟩
      simp only [headingRems, NA_HEADINGS, List.map_cons, List.map_nil,
        List.flatMap_cons, List.flatMap_nil, hsome, hn1, hn2, hn4, hts,
        List.append_nil, List.nil_append]
    · have hn1 : matchCI (("next action").toList) (hw ++ tail) = none :=
        matchCI_none_table _ hw tail _ h 0 (by decide) (by decide) (by decide)
      have hn2 : matchCI (("next step").toList) (hw ++ tail) = none :=
        matchCI_none_table _ hw tail _ h 0 (by decide) (by decide) (by decide)
      have hn3 : matchCI (("suggested step").toList) (hw ++ tail) = none :=
        matchCI_none_table _ hw tail _ h 0 (by decide) (by decide) (by decide)
      refine ⟨[], ?_⟩
      simp only [headingRems, NA_HEADINGS, List.map_cons, List.map_nil,
        List.flatMap_cons, List.flatMap_nil, hsome, hn1, hn2, hn3, hts,
        List.append_nil, List.nil_append]
  · obtain ⟨hw0, sc, rfl, h0, hsc⟩ := map_toLower_concat_split hw base h
    have hsome : matchCI base ((hw0 ++ [sc]) ++ tail) = some (sc :: tail) := by
      rw [List.append_assoc]
      rw [show ([sc] ++ tail : List Char) = sc :: tail from rfl]
      rw [← h0]
      exact matchCI_complete hw0 (sc :: tail)
    have hsop : sOpts (sc :: tail) = [tail, sc :: tail] := sOpts_s sc tail hsc
    rcases hbase4 with rfl | rfl | rfl | rfl
    · have hn2 : matchCI (("next step").toList) ((hw0 ++ [sc]) ++ tail) = none :=
        matchCI_none_table _ (hw0 ++ [sc]) tail _ h 5 (by decide) (by decide) (by decide)
      have hn3 : matchCI (("suggested step").toList) ((hw0 ++ [sc]) ++ tail) = none :=
        matchCI_none_table _ (hw0 ++ [sc]) tail _ h 0 (by decide) (by decide) (by decide)
      have hn4 : matchCI (("recommendation").toList) ((hw0 ++ [sc]) ++ tail) = none :=
        matchCI_none_table _ (hw0 ++ [sc]) tail _ h 0 (by decide) (by decide) (by decide)
      refine ⟨[sc :: tail], ?_⟩
      simp only [headingRems, NA_HEADINGS, List.map_cons, List.map_nil,
        List.flatMap_cons, List.flatMap_nil, hsome, hn2, hn3, hn4, hsop,
        List.append_nil, List.nil_append]
    · have hn1 : matchCI (("next action").toList) ((hw0 ++ [sc]) ++ tail) = none :=
        matchCI_none_table _ (hw0 ++ [sc]) tail _ h 5 (by decide) (by decide) (by decide)
      have hn3 : matchCI (("suggested step").toList) ((hw0 ++ [sc]) ++ tail) = none :=
        matchCI_none_table _ (hw0 ++ [sc]) tail _ h 0 (by decide) (by decide) (by decide)
      have hn4 : matchCI (("recommendation").toList) ((hw0 ++ [sc]) ++ tail) = none :=
        matchCI_none_table _ (hw0 ++ [sc]) tail _ h 0 (by decide) (by decide) (by decide)
      refine ⟨[sc :: tail], ?_⟩
      simp only [headingRems, NA_HEADINGS, List.map_cons, List.map_nil,
        List.flatMap_cons, List.flatMap_nil, hsome, hn1, hn3, hn4, hsop,
        List.append_nil, List.nil_append]
    · have hn1 : matchCI (("next action").toList) ((hw0 ++ [sc]) ++ tail) = none :=
        matchCI_none_table _ (hw0 ++ [sc]) tail _ h 0 (by decide) (by decide) (by decide)
      have hn2 : matchCI (("next step").toList) ((hw0 ++ [sc]) ++ tail) = none :=
        matchCI_none_table _ (hw0 ++ [sc]) tail _ h 0 (by decide) (by decide) (by decide)
      have hn4 : matchCI (("recommendation").toList) ((hw0 ++ [sc]) ++ tail) = none :=
        matchCI_none_table _ (hw0 ++ [sc]) tail _ h 0 (by decide) (by decide) (by decide)
      refine ⟨[sc :: tail], ?_⟩
      simp only [headingRems, NA_HEADINGS, List.map_cons, List.map_nil,
        List.flatMap_cons, List.flatMap_nil, hsome, hn1, hn2, hn4, hsop,
        List.append_nil, List.nil_append]
    · have hn1 : matchCI (("next action").toList) ((hw0 ++ [sc]) ++ tail) = none :=
        matchCI_none_table _ (hw0 ++ [sc]) tail _ h 0 (by decide) (by decide) (by decide)
      have hn2 : matchCI (("next step").toList) ((hw0 ++ [sc]) ++ tail) = none :=
        matchCI_none_table _ (hw0 ++ [sc]) tail _ h 0 (by decide) (by decide) (by decide)
      have hn3 : matchCI (("suggested step").toList) ((hw0 ++ [sc]) ++ tail) = none :=
        matchCI_none_table _ (hw0 ++ [sc]) tail _ h 0 (by decide) (by decide) (by decide)
      refine ⟨[sc :: tail], ?_⟩
      simp only [headingRems, NA_HEADINGS, List.map_cons, List.map_nil,
        List.flatMap_cons, List.flatMap_nil, hsome, hn1, hn2, hn3, hsop,
        List.append_nil, List.nil_append]

theorem tryNA_canonical (hw colonPart cs' base : List Char)
    (hbase : base ∈ NA_HEADINGS)
    (hmap : hw.map Char.toLower = base ∨ hw.map Char.toLower = base ++ ['s'])
    (hcolon : colonPart = [] ∨ colonPart = [':'])
    (hls : isListLineStart cs' = true) :
    tryNA (hw ++ (colonPart ++ '\n' :: cs')) = some (takeListLines cs') := by
  have hts : sOpts (colonPart ++ '\n' :: cs') = [colonPart ++ '\n' :: cs'] := by
    rcases hcolon with rfl | rfl
    · exact sOpts_not_s '\n' cs' (by decide)
    · exact sOpts_not_s ':' ('\n' :: cs') (by decide)
  obtain ⟨rest, hHR⟩ :=
    headingRems_canonical hw (colonPart ++ '\n' :: cs') base hbase hmap hts
  unfold tryNA
  rw [hHR]
  simp only [List.findSome?_cons]
  rw [sepCandidates_canonical colonPart cs' hcolon hls,
    List.find?_cons_of_pos _ hls]
  rfl

/-! Concrete evaluations of the two well-founded-recursive helpers on the
witness text, exposed as rewrite lemmas because `decide` cannot reduce
well-founded recursion. -/

theorem tll_eval3 : takeListLines (("1. three\nAfter").toList)
    = ((("1. three\n").toList), (("After").toList)) := by
  rw [takeListLines]
  rfl

theorem tll_eval2 : takeListLines (("- two\n1. three\nAfter").toList)
    = ((("- two\n1. three\n").toList), (("After").toList)) := by
  rw [takeListLines, if_pos (by decide)]
  change ((("- two").toList) ++ '\n'
      :: (takeListLines (("1. three\nAfter").toList)).1,
    (takeListLines (("1. three\nAfter").toList)).2) = _
  rw [tll_eval3]
  decide

theorem tll_eval1 : takeListLines (("- one\n- two\n1. three\nAfter").toList)
    = ((("- one\n- two\n1. three\n").toList), (("After").toList)) := by
  rw [takeListLines, if_pos (by decide)]
  change ((("- one").toList) ++ '\n'
      :: (takeListLines (("- two\n1. three\nAfter").toList)).1,
    (takeListLines (("- two\n1. three\nAfter").toList)).2) = _
  rw [tll_eval2]
  decide

theorem splitNL_eval_block :
    splitNL (("- one\n- two\n1. three\n").toList)
      = [("- one").toList, ("- two").toList, ("1. three").toList] := by
  rw [show ("- one\n- two\n1. three\n").toList
      = ("- one").toList ++ '\n' :: ("- two\n1. three\n").toList from by decide]
  rw [splitNL_append _ _ (by decide)]
  rw [show ("- two\n1. three\n").toList
      = ("- two").toList ++ '\n' :: ("1. three\n").toList from by decide]
  rw [splitNL_append _ _ (by decide)]
  rw [show ("1. three\n").toList
      = ("1. three").toList ++ '\n' :: ([] : List Char) from by decide]
  rw [splitNL_append _ _ (by decide)]
  rw [splitNL_nil]

/-- C6.  In every mode, `compose`'s next-actions come from
`_extract_next_actions` applied to the (patch-stripped, in patch mode)
prose.  For every text, either the extraction finds nothing and returns
the empty action list with the text unchanged, or the text decomposes as
`prefix ++ heading ++ block ++ suffix` where the heading-separator part
begins (case-insensitively) with one of the heading words
{next action(s), next step(s), suggested step(s), recommendation(s)} and
ends at a newline, the block is one or more list-item lines (bulleted,
numbered, or bullet-glyph), the returned actions are exactly the block's
lines with their leading markers stripped and whitespace trimmed, in
original order, and the returned prose is the text with the whole
heading+block excised (then stripped).  Conversely (completeness), every
text that starts with a heading word — any capitalization, optional
trailing `s`, optional colon — followed by a newline and a list block is
matched at position 0, and the extraction returns exactly the block's
marker-stripped trimmed lines with the stripped remainder as prose. -/
theorem compose_next_actions_extraction :
    (∀ (raw : String) (ev : List Citation) (mode : String),
      (composeResponse raw ev mode).next_actions
        = (extract_next_actions
            (if mode = "patch" then (extract_patch raw).2 else raw)).1)
    ∧ (∀ (text : String),
      extract_next_actions text = ([], text)
      ∨ ∃ (s : Nat) (hd b r : List Char),
          text.toList = text.toList.take s ++ hd ++ b ++ r
          ∧ hd ≠ [] ∧ hd.getLast? = some '\n'
          ∧ (∃ base ∈ NA_HEADINGS, base.length ≤ hd.length
               ∧ (hd.take base.length).map Char.toLower = base)
          ∧ b ≠ []
          ∧ (∀ l ∈ splitNL b, isListLineStart l = true)
          ∧ (extract_next_actions text).1
              = (splitNL b).filterMap (fun line =>
                  if pyStripL line = [] then none
                  else
                    let a := pyStripL (stripMarker line)
                    if a = [] then none else some (⟨a⟩ : String))
          ∧ (extract_next_actions text).2 = pyStrip ⟨text.toList.take s ++ r⟩)
    ∧ ∀ (hw colonPart cs' base : List Char), base ∈ NA_HEADINGS →
        (hw.map Char.toLower = base ∨ hw.map Char.toLower = base ++ ['s']) →
        (colonPart = [] ∨ colonPart = [':']) →
        isListLineStart cs' = true →
        extract_next_actions ⟨hw ++ (colonPart ++ '\n' :: cs')⟩
          = ((splitNL (takeListLines cs').1).filterMap (fun line =>
               if pyStripL line = [] then none
               else
                 let a := pyStripL (stripMarker line)
                 if a = [] then none else some (⟨a⟩ : String)),
             pyStrip ⟨(takeListLines cs').2⟩) := by
  refine ⟨?_, ?_, ?_⟩
  · intro raw ev mode
    unfold composeResponse
    by_cases hm : mode = "patch"
    · rw [if_pos hm, if_pos hm]
    · rw [if_neg hm, if_neg hm]
  · intro text
    rcases hscan : scanNA 0 text.toList with _ | ⟨s, b, r⟩
    · left
      simp only [extract_next_actions, hscan]
    · right
      obtain ⟨k, hk, htry⟩ := scanNA_sound text.toList 0 s b r hscan
      have hsk : s = k := by omega
      subst hsk
      obtain ⟨hd, hdec, hdne, hlast, hheading, hbne, hlines⟩ :=
        tryNA_sound _ b r htry
      refine ⟨s, hd, b, r, ?_, hdne, hlast, hheading, hbne, hlines, ?_, ?_⟩
      · conv_lhs => rw [← List.take_append_drop s text.toList]
        rw [hdec]
        simp
      · simp only [extract_next_actions, hscan]
      · simp only [extract_next_actions, hscan]
  · intro hw colonPart cs' base hbase hmap hcolon hls
    have htry : tryNA (hw ++ (colonPart ++ '\n' :: cs'))
        = some ((takeListLines cs').1, (takeListLines cs').2) := by
      rw [tryNA_canonical hw colonPart cs' base hbase hmap hcolon hls]
    have hb1 : 1 ≤ base.length := by
      have hall : ∀ b ∈ NA_HEADINGS, 1 ≤ b.length := by decide
      exact hall base hbase
    have hwcons : ∃ h0 hw', hw = h0 :: hw' := by
      cases hw with
      | nil =>
        exfalso
        rcases hmap with h | h
        · rw [List.map_nil] at h
          rw [← h] at hb1
          simp at hb1
        · rw [List.map_nil] at h
          exact absurd h.symm (by simp)
      | cons a l => exact ⟨a, l, rfl⟩
    obtain ⟨h0, hw', rfl⟩ := hwcons
    have htry' : tryNA (h0 :: (hw' ++ (colonPart ++ '\n' :: cs')))
        = some ((takeListLines cs').1, (takeListLines cs').2) := by
      rw [← List.cons_append]
      exact htry
    have hscan : scanNA 0 ((h0 :: hw') ++ (colonPart ++ '\n' :: cs'))
        = some (0, (takeListLines cs').1, (takeListLines cs').2) := by
      rw [List.cons_append]
      simp only [scanNA, htry']
    simp only [extract_next_actions, String.toList, hscan]
    simp only [List.take_zero, List.nil_append]

/-- Witness for C6: the delegation equation at a concrete mode and text,
and the completeness direction evaluated on the concrete text
`"Next Actions:\n- one\n- two\n1. three\nAfter"`, whose extraction must
produce exactly `["one", "two", "three"]` and the prose `"After"`. -/
theorem compose_next_actions_extraction_witness :
    ((composeResponse "t" [] "locate").next_actions
      = (extract_next_actions
          (if "locate" = "patch" then (extract_patch "t").2 else "t")).1)
    ∧ extract_next_actions "Next Actions:\n- one\n- two\n1. three\nAfter"
        = (["one", "two", "three"], "After") := by
  refine ⟨compose_next_actions_extraction.1 "t" [] "locate", ?_⟩
  have h := compose_next_actions_extraction.2.2
    (("Next Actions").toList) [':'] (("- one\n- two\n1. three\nAfter").toList)
    (("next action").toList) (by decide) (Or.inr (by decide)) (Or.inr rfl)
    (by decide)
  rw [show (⟨(("Next Actions").toList) ++ ([':'] ++ '\n'
      :: (("- one\n- two\n1. three\nAfter").toList))⟩ : String)
      = "Next Actions:\n- one\n- two\n1. three\nAfter" from by decide] at h
  rw [show (takeListLines (("- one\n- two\n1. three\nAfter").toList)).1
      = ("- one\n- two\n1. three\n").toList from by rw [tll_eval1]] at h
  rw [show (takeListLines (("- one\n- two\n1. three\nAfter").toList)).2
      = ("After").toList from by rw [tll_eval1]] at h
  rw [splitNL_eval_block] at h
  rw [h]
  decide

/-! ### C8: session context caps -/

/-- A session state holding 6 recent queries and 12 evidence refs, more
than `get_llm_context` returns but fewer than the claimed caps. -/
def c8State : SessionState :=
  { recent_queries :=
      [{ query := "q1", summary := "" }, { query := "q2", summary := "" },
       { query := "q3", summary := "" }, { query := "q4", summary := "" },
       { query := "q5", summary := "" }, { query := "q6", summary := "" }]
    selected_evidence_refs :=
      [{ file_path := "f1" }, { file_path := "f2" }, { file_path := "f3" },
       { file_path := "f4" }, { file_path := "f5" }, { file_path := "f6" },
       { file_path := "f7" }, { file_path := "f8" }, { file_path := "f9" },
       { file_path := "f10" }, { file_path := "f11" }, { file_path := "f12" }] }

/-- C8 counterexample: on a state with 6 stored queries and 12 stored
evidence refs, `get_llm_context` returns only the last 5 queries and the
last 10 refs — not the stored lists capped at 10 and 50 as the claim
states. -/
theorem get_llm_context_cap_counterexample :
    (get_llm_context c8State).recent_queries ≠ takeLast c8State.recent_queries 10
    ∧ (get_llm_context c8State).selected_evidence_refs
        ≠ takeLast c8State.selected_evidence_refs 50 := by
  constructor <;> decide

/-- C8 (amended).  `get_llm_context` returns the last 5 stored queries
and the last 10 stored evidence refs, most-recent-last (suffixes of the
stored lists); the caps of 10 queries and 50 refs are enforced on the
stores themselves by `add_query` and `add_evidence`. -/
theorem get_llm_context_caps (st : SessionState) (q s : String)
    (refs : List EvidenceRef) :
    (get_llm_context st).recent_queries = takeLast st.recent_queries 5
    ∧ (get_llm_context st).selected_evidence_refs
        = takeLast st.selected_evidence_refs 10
    ∧ (get_llm_context st).recent_queries.length ≤ 5
    ∧ (get_llm_context st).selected_evidence_refs.length ≤ 10
    ∧ (get_llm_context st).recent_queries <:+ st.recent_queries
    ∧ (get_llm_context st).selected_evidence_refs <:+ st.selected_evidence_refs
    ∧ (add_query st q s).recent_queries.length ≤ 10
    ∧ (add_evidence st refs).selected_evidence_refs.length ≤ 50 := by
  have hlen : ∀ (α : Type) (l : List α) (n : Nat), (takeLast l n).length ≤ n := by
    intro α l n
    simp only [takeLast, List.length_drop]
    omega
  refine ⟨rfl, rfl, hlen _ _ 5, hlen _ _ 10, ?_, ?_, hlen _ _ 10, hlen _ _ 50⟩
  · exact List.drop_suffix _ _
  · exact List.drop_suffix _ _

/-! ### C10: `open_file` is total on existing files and clamps the range -/

/-- C10.  On a loaded repository and an existing (readable) file,
`open_file` never raises, for all integer bounds: with both bounds given
it returns the slice from `max 0 (start_line - 1)` to
`min totalLines end_line` and reports the clamped `end_line`; with a
lone bound (or none) the whole file is returned. -/
theorem open_file_total_clamped (g : GatewayFiles) (path : String)
    (sl el : Option Int) (lines : List String)
    (hrepo : g.repo_path.isSome = true) (hfile : g.files path = some lines) :
    ∃ r, gw_open_file g path sl el = .ok r
      ∧ r.file_path = path
      ∧ r.total_lines = lines.length
      ∧ (∀ s e, sl = some s → el = some e →
          r.start_line = s
          ∧ r.end_line = min (lines.length : Int) e
          ∧ r.text = String.join
              (pySlice lines (max 0 (s - 1)) (min (lines.length : Int) e)))
      ∧ ((sl = none ∨ el = none) →
          r.start_line = 1
          ∧ r.end_line = (lines.length : Int)
          ∧ r.text = String.join lines) := by
  have hne : ¬ (g.repo_path.isNone = true) := by
    cases hh : g.repo_path with
    | none => rw [hh] at hrepo; exact absurd hrepo (by simp)
    | some v => simp [hh]
  unfold gw_open_file
  rw [if_neg hne, hfile]
  match sl, el with
  | some s, some e =>
    refine ⟨_, rfl, rfl, rfl, ?_, ?_⟩
    · intro s' e' hs he
      rw [Option.some.injEq] at hs he
      subst hs; subst he
      exact ⟨rfl, rfl, rfl⟩
    · rintro (h | h) <;> exact absurd h (by simp)
  | some s, none =>
    refine ⟨_, rfl, rfl, rfl, ?_, ?_⟩
    · intro s' e' _ he
      exact absurd he (by simp)
    · intro _
      exact ⟨rfl, rfl, rfl⟩
  | none, some e =>
    refine ⟨_, rfl, rfl, rfl, ?_, ?_⟩
    · intro s' e' hs _
      exact absurd hs (by simp)
    · intro _
      exact ⟨rfl, rfl, rfl⟩
  | none, none =>
    refine ⟨_, rfl, rfl, rfl, ?_, ?_⟩
    · intro s' e' hs _
      exact absurd hs (by simp)
    · intro _
      exact ⟨rfl, rfl, rfl⟩

/-- A concrete loaded repository with one three-line file. -/
def c10Files : GatewayFiles :=
  { repo_path := some "/repo"
    files := fun p => if p = "f.py" then some ["a\n", "b\n", "c\n"] else none }

/-- Witness for C10 at out-of-range bounds `start_line = 0`,
`end_line = 99` on a three-line file: no error, and the reported
`end_line` is the clamped value 3. -/
theorem open_file_total_clamped_witness :
    ∃ r, gw_open_file c10Files "f.py" (some 0) (some 99) = .ok r
      ∧ r.end_line = 3 ∧ r.start_line = 0 ∧ r.total_lines = 3
      ∧ r.text = "a\nb\nc\n" := by
  obtain ⟨r, hok, hfp, htl, hrange, hwhole⟩ :=
    open_file_total_clamped c10Files "f.py" (some 0) (some 99)
      ["a\n", "b\n", "c\n"] rfl rfl
  obtain ⟨hs, he, ht⟩ := hrange 0 99 rfl rfl
  refine ⟨r, hok, ?_, hs, by rw [htl]; rfl, ?_⟩
  · rw [he]; decide
  · rw [ht]; decide

end RepoAssist
